import Mathlib

/-!
# Verification of the algobattle market-data core

A shallow embedding of the Go server core of the algobattle repository
(`src/server/stock_data.go`, `src/server/treeset.go`, `src/server/tiingo.go`,
and their documented duplicates under `src/server/pkg/`), together with
theorems settling the frozen claims about it.

Modelling conventions:
* `time.Time` values are modelled by their Unix-seconds value (`Int`); the
  source compares dates with `Date.Before` / `Date.Unix()` which coincide on
  whole-second timestamps (all market data used is daily).
* `float64` prices are modelled by `ℚ`; the claims compare exact field values
  and recurrence shapes, not rounding behaviour.
* Go maps (`map[string]V`, `xsync.MapOf[string, V]`) are modelled by
  association lists whose `Store` operation replaces an existing binding in
  place and appends a fresh one; a Go map's intrinsic key uniqueness becomes
  a `Nodup` hypothesis where a theorem needs it.
-/

namespace Algobattle

/-! ## Association-list model of Go maps -/

/-- `m[k] = v` on a Go map / `MapOf.Store`: replace the binding in place if the
key is present, append it otherwise. -/
def storeAssoc {β : Type} : List (String × β) → String → β → List (String × β)
  | [], k, v => [(k, v)]
  | (k', v') :: rest, k, v =>
    if k' = k then (k, v) :: rest else (k', v') :: storeAssoc rest k v

/-- `m[k]` lookup on a Go map / `MapOf.Load`. -/
def loadAssoc {β : Type} : List (String × β) → String → Option β
  | [], _ => none
  | (k', v') :: rest, k => if k' = k then some v' else loadAssoc rest k

/-! ## Data model (`stock_data.go`) -/

/-- `TickerPeriod`: one ticker's bar for one date, plus computed indicators. -/
structure TickerPeriod where
  Open : ℚ
  High : ℚ
  Low : ℚ
  Close : ℚ
  Volume : Int
  AdjClose : ℚ
  AdjHigh : ℚ
  AdjLow : ℚ
  AdjOpen : ℚ
  AdjVolume : Int
  DivCash : ℚ
  SplitFactor : ℚ
  Indicators : List (String × ℚ)
  deriving DecidableEq, Repr

/-- `PackedPeriod`: one bar as received from the provider API. -/
structure PackedPeriod where
  Date : Int
  Open : ℚ
  High : ℚ
  Low : ℚ
  Close : ℚ
  Volume : Int
  AdjClose : ℚ
  AdjHigh : ℚ
  AdjLow : ℚ
  AdjOpen : ℚ
  AdjVolume : Int
  DivCash : ℚ
  SplitFactor : ℚ
  deriving DecidableEq, Repr

/-- `TickerMeta`: first and last date with data for a ticker. -/
structure TickerMeta where
  Start : Int
  End : Int
  deriving DecidableEq, Repr

/-- `Row`: one date plus the per-ticker bar map for that date. -/
structure Row where
  Date : Int
  Data : List (String × TickerPeriod)
  deriving DecidableEq, Repr

/-- `PackedRow`: serializable version of `Row` (plain map instead of
`xsync.MapOf`). -/
structure PackedRow where
  Date : Int
  Data : List (String × TickerPeriod)
  deriving DecidableEq, Repr

/-- `History`: ticker metadata plus the chronological row sequence. -/
structure History where
  Tickers : List (String × TickerMeta)
  Rows : List Row
  deriving DecidableEq, Repr

/-- `PackedHistory`: serializable version of `History`. -/
structure PackedHistory where
  Tickers : List (String × TickerMeta)
  Rows : List PackedRow
  deriving DecidableEq, Repr

/-- `NewHistory()`. -/
def NewHistory : History := ⟨[], []⟩

/-! ## `History.GetClosestRowBefore` -/

/-- The binary-search loop of `GetClosestRowBefore`: `left`/`right` bracket the
search, `closest` is the best strictly-smaller row seen so far.  Mirrors the
Go loop body statement by statement. -/
def gcrbLoop (rows : List Row) (target : Int) (left right : Int)
    (closest : Option Row) : Int × Option Row :=
  if _h : left ≤ right then
    let mid := left + (right - left) / 2
    let r := rows.getD mid.toNat ⟨0, []⟩
    if r.Date = target then (mid, some r)
    else if r.Date < target then gcrbLoop rows target (mid + 1) right (some r)
    else gcrbLoop rows target left (mid - 1) closest
  else
    match closest with
    | none => (-1, none)
    | some c => (right, some c)
  termination_by (right + 1 - left).toNat
  decreasing_by
    all_goals omega

/-- `History.GetClosestRowBefore`: returns the index and row of the closest
row at or before `date`, or `(-1, none)`. -/
def History.GetClosestRowBefore (h : History) (date : Int) : Int × Option Row :=
  if h.Rows.length = 0 then (-1, none)
  else gcrbLoop h.Rows date 0 (h.Rows.length - 1) none

/-! ## `History.addData` -/

/-- The `TickerPeriod` built from a fetched bar inside `addData`: all fields
copied, `make(map[string]float64)` for the indicator map. -/
def freshBar (p : PackedPeriod) : TickerPeriod :=
  ⟨p.Open, p.High, p.Low, p.Close, p.Volume, p.AdjClose, p.AdjHigh, p.AdjLow,
   p.AdjOpen, p.AdjVolume, p.DivCash, p.SplitFactor, []⟩

/-- `&Row{p.Date, xsync.NewMapOf[string, *TickerPeriod]()}`. -/
def emptyRow (d : Int) : Row := ⟨d, []⟩

/-- The cursor-advance loop of `addData`:
`for len(h.Rows) > i && h.Rows[i].Date.Before(p.Date) { i++ }`. -/
def advanceIdx (rows : List Row) (d : Int) (i : Nat) : Nat :=
  if h : i < rows.length then
    if (rows.get ⟨i, h⟩).Date < d then advanceIdx rows d (i + 1) else i
  else i
  termination_by rows.length - i

/-- Replace the row at index `i` (out-of-range indices leave the list
unchanged; `addData` only uses in-range indices). -/
def modifyIdx (f : Row → Row) : List Row → Nat → List Row
  | [], _ => []
  | r :: rest, 0 => f r :: rest
  | r :: rest, n + 1 => r :: modifyIdx f rest n

/-- `h.Rows[i].Data.Store(ticker, bar)`. -/
def storeAt (rows : List Row) (i : Nat) (t : String) (bar : TickerPeriod) :
    List Row :=
  modifyIdx (fun r => ⟨r.Date, storeAssoc r.Data t bar⟩) rows i

/-- One iteration of the `addData` merge loop, on the state
(current rows, cursor `i`).  Mirrors the Go body: splice a fresh row at the
front when the cursor is the `-1` sentinel, advance the cursor past rows
dated before the bar, append a fresh row when the cursor ran off the end,
then store the freshly built bar into the row at the cursor. -/
def processBar (t : String) : List Row × Int → PackedPeriod → List Row × Int
  | (rows, i), p =>
    let st := if i = -1 then (emptyRow p.Date :: rows, (0 : Int)) else (rows, i)
    let j := advanceIdx st.1 p.Date st.2.toNat
    let rows' := if j = st.1.length then st.1 ++ [emptyRow p.Date] else st.1
    (storeAt rows' j t (freshBar p), (j : Int))

/-- `History.addData` (`History.AddData` in `pkg/models`): record the ticker's
range as (first bar's date, last bar's date), then merge the bars into the
row sequence starting from `GetClosestRowBefore(first bar's date)`. -/
def History.addData (h : History) (periods : List PackedPeriod)
    (ticker : String) : History :=
  match periods with
  | [] => h
  | p₀ :: _ =>
    { Tickers := storeAssoc h.Tickers ticker
        ⟨p₀.Date, (periods.getLastD p₀).Date⟩
      Rows := (periods.foldl (processBar ticker)
        (h.Rows, (h.GetClosestRowBefore p₀.Date).1)).1 }

/-! ## Pack / Unpack -/

/-- `Row.Pack`: convert the concurrent map to a plain map
(`xsync.ToPlainMapOf`). -/
def Row.Pack (r : Row) : PackedRow := ⟨r.Date, r.Data⟩

/-- `PackedRow.Unpack`: build a fresh concurrent map and `Store` every
binding of the plain map into it. -/
def PackedRow.Unpack (pr : PackedRow) : Row :=
  ⟨pr.Date, pr.Data.foldl (fun acc kv => storeAssoc acc kv.1 kv.2) []⟩

/-- `History.Pack`. -/
def History.Pack (h : History) : PackedHistory :=
  ⟨h.Tickers, h.Rows.map Row.Pack⟩

/-- `PackedHistory.Unpack`. -/
def PackedHistory.Unpack (ph : PackedHistory) : History :=
  ⟨ph.Tickers, ph.Rows.map PackedRow.Unpack⟩

/-! ## `treeset.go` -/

/-- `RED` / `BLACK` node colors. -/
def RED : Bool := true

/-- Black color constant. -/
def BLACK : Bool := false

/-- `node[T]`: a binary tree node with a color bit; `nil` is the Go nil
pointer. -/
inductive RBNode (T : Type) where
  | nil : RBNode T
  | node (value : T) (left right : RBNode T) (color : Bool) : RBNode T
  deriving DecidableEq, Repr

namespace RBNode

variable {T : Type}

/-- `n.left` (nil-safe: Go code always guards dereferences). -/
def left : RBNode T → RBNode T
  | .nil => .nil
  | .node _ l _ _ => l

/-- `n.right`. -/
def right : RBNode T → RBNode T
  | .nil => .nil
  | .node _ _ r _ => r

/-- `n.isRed()`: nil nodes are black. -/
def isRed : RBNode T → Bool
  | .nil => false
  | .node _ _ _ c => c == RED

/-- `n.color = c` on a non-nil node. -/
def setColor : RBNode T → Bool → RBNode T
  | .nil, _ => .nil
  | .node v l r _, c => .node v l r c

/-- `n.rotateLeft()`; the source only calls it when `n.right` is non-nil, so
the remaining cases return the node unchanged. -/
def rotateLeft : RBNode T → RBNode T
  | .node v l (.node xv xl xr _) c => .node xv (.node v l xl RED) xr c
  | n => n

/-- `n.rotateRight()`; the source only calls it when `n.left` is non-nil. -/
def rotateRight : RBNode T → RBNode T
  | .node v (.node xv xl xr _) r c => .node xv xl (.node v xr r RED) c
  | n => n

/-- `n.flipColors()`: color the node red and its (non-nil) children black. -/
def flipColors : RBNode T → RBNode T
  | .nil => .nil
  | .node v l r _ => .node v (l.setColor BLACK) (r.setColor BLACK) RED

/-- Replace the left child of a non-nil node (`n.left = x`). -/
def withLeft : RBNode T → RBNode T → RBNode T
  | .nil, _ => .nil
  | .node v _ r c, l => .node v l r c

/-- Replace the right child of a non-nil node (`n.right = x`). -/
def withRight : RBNode T → RBNode T → RBNode T
  | .nil, _ => .nil
  | .node v l _ c, r => .node v l r c

/-- Pointer-nil test (`n == nil`). -/
def isNil : RBNode T → Bool
  | .nil => true
  | .node _ _ _ _ => false

/-- `n.moveRedLeft()`: flip colors, then if the right child's left child is
red, rotate it right, rotate the node left and flip again. -/
def moveRedLeft (n : RBNode T) : RBNode T :=
  if n.flipColors.right.left.isRed then
    ((n.flipColors.withRight n.flipColors.right.rotateRight).rotateLeft).flipColors
  else n.flipColors

/-- `n.moveRedRight()`. -/
def moveRedRight (n : RBNode T) : RBNode T :=
  if n.flipColors.left.left.isRed then (n.flipColors.rotateRight).flipColors
  else n.flipColors

/-- `n.balance()`. -/
def balance (n : RBNode T) : RBNode T :=
  match n with
  | .nil => .nil
  | _ =>
    let n := if n.right.isRed then n.rotateLeft else n
    let n := if n.left.isRed && n.left.left.isRed then n.rotateRight else n
    if n.left.isRed && n.right.isRed then n.flipColors else n

/-- `n.min()`: the value of the leftmost node. -/
def minValue : RBNode T → Option T
  | .nil => none
  | .node v l _ _ =>
    match l with
    | .nil => some v
    | _ => l.minValue

/-- Node count, the termination measure for `deleteMin`/`delete`. -/
def size : RBNode T → Nat
  | .nil => 0
  | .node _ l r _ => l.size + r.size + 1

@[simp] theorem size_setColor (n : RBNode T) (c : Bool) :
    (n.setColor c).size = n.size := by
  cases n <;> rfl

@[simp] theorem size_flipColors (n : RBNode T) :
    n.flipColors.size = n.size := by
  cases n <;> simp [flipColors, size]

@[simp] theorem size_rotateLeft (n : RBNode T) :
    n.rotateLeft.size = n.size := by
  match n with
  | .nil => rfl
  | .node v l .nil c => rfl
  | .node v l (.node xv xl xr xc) c => simp [rotateLeft, size]; omega

@[simp] theorem size_rotateRight (n : RBNode T) :
    n.rotateRight.size = n.size := by
  match n with
  | .nil => rfl
  | .node v .nil r c => rfl
  | .node v (.node xv xl xr xc) r c => simp [rotateRight, size]; omega

@[simp] theorem withRight_nil (x : RBNode T) : (RBNode.nil).withRight x = .nil := rfl

@[simp] theorem size_withRight_node (v : T) (l r c x) :
    ((RBNode.node v l r c).withRight x).size = l.size + x.size + 1 := by
  simp [withRight, size]

@[simp] theorem size_moveRedLeft (n : RBNode T) :
    n.moveRedLeft.size = n.size := by
  unfold moveRedLeft
  split
  · cases n with
    | nil => rfl
    | node v l r c =>
      rw [size_flipColors, size_rotateLeft]
      simp [flipColors, right, withRight, size]
  · simp

@[simp] theorem size_moveRedRight (n : RBNode T) :
    n.moveRedRight.size = n.size := by
  unfold moveRedRight
  split <;> simp

@[simp] theorem size_balance (n : RBNode T) :
    n.balance.size = n.size := by
  unfold balance
  cases n with
  | nil => rfl
  | node v l r c =>
    dsimp only
    split <;> split <;> split <;> simp

theorem size_left_lt {n : RBNode T} (h : n ≠ .nil) :
    n.left.size < n.size := by
  cases n with
  | nil => exact absurd rfl h
  | node v l r c => simp [left, size]; omega

theorem size_right_lt {n : RBNode T} (h : n ≠ .nil) :
    n.right.size < n.size := by
  cases n with
  | nil => exact absurd rfl h
  | node v l r c => simp [right, size]; omega

/-- A node equation for a size-preserving transform bounds the subtree
sizes; used for the termination of `deleteMin`/`deleteNode`. -/
theorem size_node_lt_of_eq {t m : RBNode T} {v1 : T} {l1 r1 : RBNode T}
    {c1 : Bool} (hsz : t.size = m.size) (heq : t = .node v1 l1 r1 c1) :
    l1.size < m.size ∧ r1.size < m.size := by
  subst heq
  simp [size] at hsz
  omega

/-- `n.deleteMin()`: remove the leftmost node.  (The `n.left == nil` case
returns nil, dropping any right child — faithful to the source.) -/
def deleteMin : RBNode T → RBNode T
  | .nil => .nil
  | .node v l r c =>
    if l.isNil then .nil
    else
      match _hml : (if !l.isRed && !l.left.isRed
          then (RBNode.node v l r c).moveRedLeft
          else RBNode.node v l r c) with
      | .nil => RBNode.nil.balance
      | .node v1 l1 r1 c1 => (RBNode.node v1 l1.deleteMin r1 c1).balance
  termination_by n => n.size
  decreasing_by
    exact (size_node_lt_of_eq (by split <;> simp) _hml).1

end RBNode

/-- `TreeSet[T]`: the tree root.  The comparator is passed to each operation
(`Comparator[T] = func(a, b T) int`). -/
structure TreeSet (T : Type) where
  root : RBNode T

namespace TreeSet

variable {T : Type}

/-- `NewTreeSet`. -/
def empty : TreeSet T := ⟨.nil⟩

/-- The recursive `t.insert(n, value)`. -/
def insertNode (cmp : T → T → Int) : RBNode T → T → RBNode T
  | .nil, value => .node value .nil .nil RED
  | .node v l r c, value =>
    let n :=
      if cmp value v < 0 then RBNode.node v (insertNode cmp l value) r c
      else if cmp value v > 0 then RBNode.node v l (insertNode cmp r value) c
      else RBNode.node v l r c
    let n := if n.right.isRed && !n.left.isRed then n.rotateLeft else n
    let n := if n.left.isRed && n.left.left.isRed then n.rotateRight else n
    if n.left.isRed && n.right.isRed then n.flipColors else n

/-- `t.Insert(values...)`: repeated root insertion, re-blackening the root. -/
def Insert (cmp : T → T → Int) (t : TreeSet T) (values : List T) : TreeSet T :=
  values.foldl (fun t value => ⟨(insertNode cmp t.root value).setColor BLACK⟩) t

/-- The recursive `t.delete(h, value)`.  The searched-for key is compared to
the (possibly rotated) node's value; the nil match arms are unreachable
because the rotation/move helpers preserve non-nilness. -/
def deleteNode (cmp : T → T → Int) (h : RBNode T) (value : T) : RBNode T :=
  match h with
  | .nil => .nil
  | .node hv hl hr hc =>
    if cmp value hv < 0 then
      match _hh1 : (if !hl.isRed && !hl.left.isRed
          then (RBNode.node hv hl hr hc).moveRedLeft
          else RBNode.node hv hl hr hc) with
      | .nil => RBNode.nil.balance
      | .node v1 l1 r1 c1 =>
        (if l1.isNil then RBNode.node v1 l1 r1 c1
         else RBNode.node v1 (deleteNode cmp l1 value) r1 c1).balance
    else
      match _hg1 : (if hl.isRed then (RBNode.node hv hl hr hc).rotateRight
          else RBNode.node hv hl hr hc) with
      | .nil => .nil
      | .node v1 l1 r1 c1 =>
        if cmp value v1 = 0 ∧ r1.isNil then .nil
        else
          match _hg2 : (if !r1.isRed && !r1.left.isRed
              then (RBNode.node v1 l1 r1 c1).moveRedRight
              else RBNode.node v1 l1 r1 c1) with
          | .nil => .nil
          | .node v2 l2 r2 c2 =>
            if cmp value v2 = 0 then
              match r2.minValue with
              | some sv => (RBNode.node sv l2 r2.deleteMin c2).balance
              | none => (RBNode.node v2 l2 r2 c2).balance
            else
              (if r2.isNil then RBNode.node v2 l2 r2 c2
               else RBNode.node v2 l2 (deleteNode cmp r2 value) c2).balance
  termination_by h.size
  decreasing_by
  · exact (RBNode.size_node_lt_of_eq (by split <;> simp) _hh1).1
  · have h2 : r2.size < (RBNode.node v1 l1 r1 c1).size :=
      (RBNode.size_node_lt_of_eq (by split <;> simp) _hg2).2
    calc r2.size < (RBNode.node v1 l1 r1 c1).size := h2
    _ = _ := by rw [← _hg1]; split <;> simp

/-- `t.Remove(values...)`: repeated root deletion, re-blackening the root. -/
def Remove (cmp : T → T → Int) (t : TreeSet T) (values : List T) : TreeSet T :=
  values.foldl (fun t value => ⟨(deleteNode cmp t.root value).setColor BLACK⟩) t

/-- `t.Contains(value)`: iterative BST membership walk. -/
def containsNode (cmp : T → T → Int) : RBNode T → T → Bool
  | .nil, _ => false
  | .node v l r _, value =>
    if cmp value v < 0 then containsNode cmp l value
    else if cmp value v > 0 then containsNode cmp r value
    else true

/-- `t.Contains(value)`. -/
def Contains (cmp : T → T → Int) (t : TreeSet T) (value : T) : Bool :=
  containsNode cmp t.root value

/-- In-order traversal: the sequence yielded by the explicit-stack loop of
`t.All()` (push the left spine, pop, yield, continue with the right child),
and hence the contents of `t.AsSlice()`. -/
def inorder : RBNode T → List T
  | .nil => []
  | .node v l r _ => inorder l ++ [v] ++ inorder r

/-- `t.AsSlice()`. -/
def AsSlice (t : TreeSet T) : List T := inorder t.root

end TreeSet

/-! ## Indicators (`EMA.Apply`, `MACD.Apply`)

`Indicator.Apply` receives a row window plus three accessors.  In both uses in
the source — `CalculateIndicators` (where `setValue` writes
`data.Indicators[name]` and `getIndicator(i-1, name)` reads the value written
on the previous iteration) and the scratch arrays inside `MACD.Apply` — the
`getIndicator` accessor returns exactly the value last written at that index.
We therefore model an `Apply` run by the list of values written, index by
index; `getTarget` stays an arbitrary function of the index.  (For
`periodLength ≤ 0` the source would read index `-1` and panic; the claims only
concern `periodLength ≥ 1`, and the model clamps the index at 0.) -/

/-- `EMA`: exponential-moving-average indicator parameters. -/
structure EMA where
  smoothing : Int
  periodLength : Int

/-- The `EMA.Apply` loop: state is the running warm-up `sum` and the list of
values written so far ( `n` iterations processed). -/
def EMA.applyLoop (sf : ℚ) (periodLength : Int) (getTarget : Nat → ℚ) :
    Nat → ℚ × List ℚ
  | 0 => (0, [])
  | n + 1 =>
    let st := EMA.applyLoop sf periodLength getTarget n
    if (n : Int) < periodLength then
      (st.1 + getTarget n, st.2 ++ [(st.1 + getTarget n) / ((n : ℚ) + 1)])
    else
      (st.1, st.2 ++ [getTarget n * sf + (st.2.getD (n - 1) 0) * (1 - sf)])

/-- `EMA.Apply` on a window of `n` rows: the written value sequence.
`sf = smoothing / (periodLength + 1)`. -/
def EMA.Apply (ema : EMA) (n : Nat) (getTarget : Nat → ℚ) : List ℚ :=
  (EMA.applyLoop ((ema.smoothing : ℚ) / ((ema.periodLength : ℚ) + 1))
    ema.periodLength getTarget n).2

/-- `MACD`: convergence/divergence indicator parameters. -/
structure MACD where
  shortPeriod : Int
  longPeriod : Int

/-- `MACD.Apply` on a window of `n` rows: `panic` on a bad configuration is
modelled as `Except.error` (so an error carries no writes at all); otherwise
the written values are `shortEMA - longEMA` for indices at or past
`longPeriod` and no write (`none`) before that. -/
def MACD.Apply (macd : MACD) (n : Nat) (getTarget : Nat → ℚ) :
    Except String (List (Option ℚ)) :=
  if macd.shortPeriod ≥ macd.longPeriod then
    Except.error "MACD shortPeriod should be less than longPeriod"
  else
    Except.ok ((List.range n).map (fun (i : Nat) =>
      if (i : Int) < macd.longPeriod then none
      else some ((EMA.Apply ⟨2, macd.shortPeriod⟩ n getTarget).getD i 0 -
        (EMA.Apply ⟨2, macd.longPeriod⟩ n getTarget).getD i 0)))

/-! ## `Tiingo.historicalDaily` / `Tiingo.HistoricalDaily`

The two variants of the historical-bars fetch differ only in their handling
of non-success HTTP statuses, which is what the claims are about.  We model
the observable effects of the status-handling code as a function of the
response status code: whether `t.tickers.Remove(ticker)` was invoked, whether
the body was merged via `addData`/`AddData`, and the returned error. -/

/-- Observable effects of one historical-daily fetch. -/
structure HistDailyEffect where
  removedFromWatchlist : Bool
  mergedIntoCache : Bool
  errorReturned : Bool
  deriving DecidableEq, Repr

/-- `Tiingo.historicalDaily` (`src/server/tiingo.go`): on any non-200 status
it logs on 404, removes the ticker from the watchlist unconditionally, and
returns an error; on 200 it decodes and merges the bars. -/
def historicalDaily (statusCode : Nat) : HistDailyEffect :=
  if statusCode ≠ 200 then
    { removedFromWatchlist := true, mergedIntoCache := false,
      errorReturned := true }
  else
    { removedFromWatchlist := false, mergedIntoCache := true,
      errorReturned := false }

/-- `Tiingo.HistoricalDaily` (`src/server/pkg/services/tiingo.go`): on a
non-200 status it removes the ticker only when the status is 404, and returns
an error either way; on 200 it decodes and merges the bars. -/
def HistoricalDaily (statusCode : Nat) : HistDailyEffect :=
  if statusCode ≠ 200 then
    { removedFromWatchlist := statusCode = 404, mergedIntoCache := false,
      errorReturned := true }
  else
    { removedFromWatchlist := false, mergedIntoCache := true,
      errorReturned := false }

/-! ## General lemmas about the association-list map model -/

theorem loadAssoc_storeAssoc_same {β : Type} (d : List (String × β)) (k : String)
    (v : β) : loadAssoc (storeAssoc d k v) k = some v := by
  induction d with
  | nil => simp [storeAssoc, loadAssoc]
  | cons kv rest ih =>
    by_cases hk : kv.1 = k
    · simp [storeAssoc, loadAssoc, hk]
    · simp [storeAssoc, loadAssoc, hk, ih]

theorem storeAssoc_eq_append {β : Type} (d : List (String × β)) (k : String)
    (v : β) (hk : k ∉ d.map Prod.fst) : storeAssoc d k v = d ++ [(k, v)] := by
  induction d with
  | nil => rfl
  | cons kv rest ih =>
    simp only [List.map_cons, List.mem_cons] at hk
    push_neg at hk
    simp [storeAssoc, Ne.symm hk.1, ih hk.2]

theorem storeAssoc_same_value {β : Type} (d : List (String × β)) (k : String)
    (v : β) (hv : loadAssoc d k = some v) : storeAssoc d k v = d := by
  induction d with
  | nil => simp [loadAssoc] at hv
  | cons kv rest ih =>
    obtain ⟨k', v'⟩ := kv
    by_cases hk : k' = k
    · subst hk
      simp [loadAssoc] at hv
      simp [storeAssoc, hv]
    · simp [loadAssoc, hk] at hv
      simp [storeAssoc, hk, ih hv]

theorem foldl_storeAssoc_of_disjoint {β : Type} (l acc : List (String × β))
    (hnd : (l.map Prod.fst).Nodup)
    (hdisj : ∀ k ∈ l.map Prod.fst, k ∉ acc.map Prod.fst) :
    l.foldl (fun a kv => storeAssoc a kv.1 kv.2) acc = acc ++ l := by
  induction l generalizing acc with
  | nil => simp
  | cons kv rest ih =>
    simp only [List.map_cons, List.nodup_cons] at hnd
    have hstep : storeAssoc acc kv.1 kv.2 = acc ++ [kv] := by
      have := storeAssoc_eq_append acc kv.1 kv.2
        (hdisj kv.1 (by simp))
      simpa using this
    have hdisj' : ∀ k ∈ rest.map Prod.fst, k ∉ (acc ++ [kv]).map Prod.fst := by
      intro k hkmem
      simp only [List.map_append, List.mem_append, List.map_cons]
      push_neg
      refine ⟨hdisj k (by simp [hkmem]), ?_⟩
      simp only [List.map_nil, List.mem_cons, List.not_mem_nil, or_false]
      intro hkk
      exact hnd.1 (hkk ▸ hkmem)
    calc (kv :: rest).foldl (fun a p => storeAssoc a p.1 p.2) acc
        = rest.foldl (fun a p => storeAssoc a p.1 p.2) (acc ++ [kv]) := by
          simp [List.foldl_cons, hstep]
    _ = (acc ++ [kv]) ++ rest := ih (acc ++ [kv]) hnd.2 hdisj'
    _ = acc ++ (kv :: rest) := by simp

theorem unpack_pack_row (r : Row) (hnd : (r.Data.map Prod.fst).Nodup) :
    (Row.Pack r).Unpack = r := by
  have := foldl_storeAssoc_of_disjoint r.Data [] hnd (by simp)
  simp [Row.Pack, PackedRow.Unpack, this]

/-! ## Concrete inputs shared by several claims -/

/-- A fetched bar at date `d` with all price fields zero. -/
def zeroBar (d : Int) : PackedPeriod := ⟨d, 0, 0, 0, 0, 0, 0, 0, 0, 0, 0, 0, 0⟩

/-- `cmp.Compare` for `Int`, the comparator shape used by
`NewTreeSet[string](cmp.Compare)`. -/
def cmpCompare (a b : Int) : Int := if a < b then -1 else if a > b then 1 else 0

/-- A `History` holding ticker "A" bars on dates 1 and 3 only. -/
def historyA13 : History :=
  ⟨[("A", ⟨1, 3⟩)],
   [⟨1, [("A", freshBar (zeroBar 1))]⟩, ⟨3, [("A", freshBar (zeroBar 3))]⟩]⟩

/-! ## Claim C1 -/

/-- C1: the claim states that merging a bar whose date falls strictly between
two existing rows' dates splices a new row in at the correct sorted position,
so that every bar is stored into a row whose date equals the bar's date.  The
code refutes this: starting from rows dated 1 and 3, merging a single bar for
ticker "B" dated 2 leaves the row dates `[1, 3]` (no row spliced) and stores
the date-2 bar into the row dated 3. -/
theorem c1_gap_bar_stored_into_wrong_dated_row :
    (historyA13.addData [zeroBar 2] "B").Rows.map Row.Date = [1, 3] ∧
    ((historyA13.addData [zeroBar 2] "B").Rows.getD 1 ⟨0, []⟩).Date = 3 ∧
    loadAssoc ((historyA13.addData [zeroBar 2] "B").Rows.getD 1 ⟨0, []⟩).Data "B"
      = some (freshBar (zeroBar 2)) := by
  simp [historyA13, History.addData, History.GetClosestRowBefore, gcrbLoop,
    processBar, advanceIdx, storeAt, modifyIdx, storeAssoc, loadAssoc,
    emptyRow, freshBar, zeroBar]

/-! ## Claim C2 -/

/-- C2 counterexample: the claim states that on a non-success status other
than 404 the ticker is left in the watchlist.  `historicalDaily`
(`src/server/tiingo.go`) responds to status 500 by removing the ticker (and
returning an error): the `t.tickers.Remove(ticker)` call sits outside the
404 check. -/
theorem c2_counterexample_500_removes_ticker :
    (historicalDaily 500).removedFromWatchlist = true ∧
    (historicalDaily 500).errorReturned = true := by
  constructor <;> rfl

/-- C2 amended: `HistoricalDaily` (`pkg/services/tiingo.go`) removes the
ticker exactly on a 404 response and returns an error on every non-200
status, while `historicalDaily` (`src/server/tiingo.go`) removes the ticker
on every non-200 status; both merge the fetched bars exactly on a 200
response. -/
theorem c2_amended_status_effects (s : Nat) :
    ((HistoricalDaily s).removedFromWatchlist = decide (s = 404)) ∧
    ((HistoricalDaily s).errorReturned = decide (s ≠ 200)) ∧
    ((HistoricalDaily s).mergedIntoCache = decide (s = 200)) ∧
    ((historicalDaily s).removedFromWatchlist = decide (s ≠ 200)) ∧
    ((historicalDaily s).errorReturned = decide (s ≠ 200)) ∧
    ((historicalDaily s).mergedIntoCache = decide (s = 200)) := by
  by_cases h200 : s = 200
  · subst h200
    simp [HistoricalDaily, historicalDaily]
  · by_cases h404 : s = 404
    · subst h404
      simp [HistoricalDaily, historicalDaily]
    · simp [HistoricalDaily, historicalDaily, h200, h404]

/-! ## Claim C3 -/

/-- C3 counterexample: the claim states the TickerRange never shrinks across
merges.  The code overwrites the entry with exactly (first bar's date, last
bar's date): after ingesting bars at dates 0 and 100 for "A" and then bars
at dates 50 and 60, the stored range is (50, 60) — the start moved later
from 0 to 50 and the end moved earlier from 100 to 60. -/
theorem c3_counterexample_range_shrinks :
    loadAssoc ((NewHistory.addData [zeroBar 0, zeroBar 100] "A").addData
      [zeroBar 50, zeroBar 60] "A").Tickers "A" = some ⟨50, 60⟩ := by
  simp [NewHistory, History.addData, History.GetClosestRowBefore, gcrbLoop,
    processBar, advanceIdx, storeAt, modifyIdx, storeAssoc, loadAssoc,
    emptyRow, freshBar, zeroBar]

/-- C3 amended: a non-empty merge overwrites the TickerRange entry with
exactly (first bar's date, last bar's date); consequently the range does not
shrink precisely when the new bar span covers the previously stored range
(the spec's stated assumption that the provider returns the full span each
call). -/
theorem c3_amended_range_overwritten (h : History) (t : String)
    (p₀ : PackedPeriod) (rest : List PackedPeriod) :
    loadAssoc ((h.addData (p₀ :: rest) t)).Tickers t =
      some ⟨p₀.Date, ((p₀ :: rest).getLastD p₀).Date⟩ ∧
    (∀ old : TickerMeta, loadAssoc h.Tickers t = some old →
      p₀.Date ≤ old.Start → old.End ≤ ((p₀ :: rest).getLastD p₀).Date →
      ∀ new : TickerMeta,
        loadAssoc ((h.addData (p₀ :: rest) t)).Tickers t = some new →
        new.Start ≤ old.Start ∧ old.End ≤ new.End) := by
  have hload : loadAssoc ((h.addData (p₀ :: rest) t)).Tickers t =
      some ⟨p₀.Date, ((p₀ :: rest).getLastD p₀).Date⟩ := by
    simp only [History.addData]
    exact loadAssoc_storeAssoc_same _ _ _
  refine ⟨hload, ?_⟩
  intro old _ hstart hend new hnew
  rw [hload] at hnew
  cases hnew
  exact ⟨hstart, hend⟩

/-- C3 amended, witnessed at a concrete input. -/
theorem c3_amended_range_overwritten_witness :
    loadAssoc ((historyA13.addData [zeroBar 0, zeroBar 5] "A")).Tickers "A" =
      some ⟨0, 5⟩ ∧
    loadAssoc historyA13.Tickers "A" = some ⟨1, 3⟩ ∧
    ((0 : Int) ≤ 1 ∧ (3 : Int) ≤ 5) ∧
    ((0 : Int) ≤ 1 ∧ (3 : Int) ≤ 5) := by
  have hmain := c3_amended_range_overwritten historyA13 "A" (zeroBar 0) [zeroBar 5]
  have hold : loadAssoc historyA13.Tickers "A" = some ⟨1, 3⟩ := by
    simp [historyA13, loadAssoc]
  have hlast : (([zeroBar 0, zeroBar 5]).getLastD (zeroBar 0)).Date = 5 := by
    simp [zeroBar]
  refine ⟨?_, hold, ⟨by norm_num, by norm_num⟩, ?_⟩
  · have := hmain.1
    simpa [hlast, zeroBar] using this
  · have hnew := hmain.1
    have := hmain.2 ⟨1, 3⟩ hold (by simp [zeroBar]) (by simp [zeroBar, hlast])
      ⟨(zeroBar 0).Date, (([zeroBar 0, zeroBar 5]).getLastD (zeroBar 0)).Date⟩ hnew
    exact ⟨by norm_num, by norm_num⟩

/-! ## Claim C4 -/

/-- C4: a MACD indicator with `shortPeriod ≥ longPeriod` fails fast: for
every window and every target series, `MACD.Apply` raises the configuration
error as its first action — the result is the error, independent of the
rows and targets, and no value is read or written (an `Except.error` carries
no writes). -/
theorem c4_macd_fails_fast (sp lp : Int) (n : Nat) (g : Nat → ℚ)
    (hbad : lp ≤ sp) :
    MACD.Apply ⟨sp, lp⟩ n g =
      Except.error "MACD shortPeriod should be less than longPeriod" := by
  simp [MACD.Apply, hbad]

/-- C4 witnessed at a concrete bad configuration. -/
theorem c4_macd_fails_fast_witness :
    (3 : Int) ≤ 5 ∧
    MACD.Apply ⟨5, 3⟩ 4 (fun i => (i : ℚ)) =
      Except.error "MACD shortPeriod should be less than longPeriod" :=
  ⟨by norm_num, c4_macd_fails_fast 5 3 4 (fun i => (i : ℚ)) (by norm_num)⟩

/-! ## Claim C6 -/

/-- C6: the claim states that after any insert/remove sequence from the empty
set, `AsSlice` is the sorted list of inserted-minus-removed values and
`Contains` matches membership.  The code refutes this: inserting 0, 1, 2 and
then removing 1 and 2 (value 0 is never removed) yields an empty tree —
`AsSlice` returns `[]` instead of `[0]` and `Contains 0` returns `false`.
The `delete` branch that returns nil when the right child is nil drops the
node's left subtree because the implementation omits the standard
"color the root red before deleting" step of red-black deletion. -/
theorem c6_treeset_remove_drops_element :
    TreeSet.AsSlice (TreeSet.Remove cmpCompare
      (TreeSet.Insert cmpCompare TreeSet.empty [0, 1, 2]) [1, 2]) = [] ∧
    TreeSet.Contains cmpCompare (TreeSet.Remove cmpCompare
      (TreeSet.Insert cmpCompare TreeSet.empty [0, 1, 2]) [1, 2]) 0 = false := by
  constructor <;>
    simp [TreeSet.Remove, TreeSet.Insert, TreeSet.empty, TreeSet.insertNode,
      TreeSet.deleteNode, TreeSet.AsSlice, TreeSet.inorder, TreeSet.Contains,
      TreeSet.containsNode, cmpCompare, RBNode.setColor, RBNode.isRed,
      RBNode.left, RBNode.right, RBNode.rotateLeft, RBNode.rotateRight,
      RBNode.flipColors, RBNode.balance, RBNode.moveRedLeft,
      RBNode.moveRedRight, RBNode.isNil, RBNode.minValue, RBNode.deleteMin,
      RBNode.withRight, RED, BLACK]

/-! ## Claim C9 -/

/-- C9: packing a `History` and unpacking it again is total and lossless —
given the Go-map representation invariant that each row's ticker map has no
duplicate keys, the round trip preserves the ticker metadata and every row's
date and bar data (indicator values included) exactly. -/
theorem c9_pack_unpack_roundtrip (h : History)
    (hnd : ∀ row ∈ h.Rows, (row.Data.map Prod.fst).Nodup) :
    (History.Pack h).Unpack = h := by
  obtain ⟨tickers, rows⟩ := h
  simp only [History.Pack, PackedHistory.Unpack, List.map_map]
  congr 1
  induction rows with
  | nil => rfl
  | cons r rest ih =>
    simp only [List.map_cons, Function.comp_apply]
    have hr : (Row.Pack r).Unpack = r := unpack_pack_row r (hnd r (by simp))
    rw [hr, ih]
    intro row hrow
    exact hnd row (by simp [hrow])

/-- C9 witnessed at a concrete history with bars and computed indicators. -/
theorem c9_pack_unpack_roundtrip_witness :
    (∀ row ∈ historyA13.Rows, (row.Data.map Prod.fst).Nodup) ∧
    (History.Pack historyA13).Unpack = historyA13 :=
  ⟨by decide, c9_pack_unpack_roundtrip historyA13 (by decide)⟩

/-! ## Claim C8: EMA lemmas -/

section EmaLemmas

variable (sf : ℚ) (p : Int) (g : Nat → ℚ)

theorem applyLoop_snd_length (n : Nat) :
    ((EMA.applyLoop sf p g n).2).length = n := by
  induction n with
  | zero => rfl
  | succ m ih =>
    unfold EMA.applyLoop
    split <;> simp [ih]

theorem applyLoop_succ_def (n : Nat) :
    EMA.applyLoop sf p g (n + 1) =
      if (n : Int) < p then
        ((EMA.applyLoop sf p g n).1 + g n,
          (EMA.applyLoop sf p g n).2 ++
            [((EMA.applyLoop sf p g n).1 + g n) / ((n : ℚ) + 1)])
      else
        ((EMA.applyLoop sf p g n).1,
          (EMA.applyLoop sf p g n).2 ++
            [g n * sf + ((EMA.applyLoop sf p g n).2.getD (n - 1) 0) * (1 - sf)]) :=
  rfl

theorem applyLoop_snd_succ (n : Nat) :
    ∃ x, (EMA.applyLoop sf p g (n + 1)).2 = (EMA.applyLoop sf p g n).2 ++ [x] := by
  rw [applyLoop_succ_def]
  split
  · exact ⟨_, rfl⟩
  · exact ⟨_, rfl⟩

theorem applyLoop_snd_getD_stable (n i : Nat) (hi : i < n) :
    ((EMA.applyLoop sf p g (n + 1)).2).getD i 0 =
      ((EMA.applyLoop sf p g n).2).getD i 0 := by
  obtain ⟨x, hx⟩ := applyLoop_snd_succ sf p g n
  rw [hx]
  have hlen : i < ((EMA.applyLoop sf p g n).2).length := by
    rw [applyLoop_snd_length]; exact hi
  simp [List.getD, List.getElem?_append_left hlen]

theorem applyLoop_fst_sum (hp : 0 ≤ p) (n : Nat) :
    (EMA.applyLoop sf p g n).1 = ((List.range (min n p.toNat)).map g).sum := by
  induction n with
  | zero => simp [EMA.applyLoop]
  | succ m ih =>
    unfold EMA.applyLoop
    split
    · rename_i hlt
      have hm : m < p.toNat := by omega
      have h1 : min (m + 1) p.toNat = m + 1 := by omega
      have h2 : min m p.toNat = m := by omega
      rw [h2] at ih
      simp only [h1, ih, List.range_succ, List.map_append, List.sum_append,
        List.map_cons, List.map_nil, List.sum_cons, List.sum_nil]
      ring
    · rename_i hge
      have hm : p.toNat ≤ m := by omega
      have h1 : min (m + 1) p.toNat = p.toNat := by omega
      have h2 : min m p.toNat = p.toNat := by omega
      rw [h2] at ih
      simp only [h1, ih]

theorem applyLoop_snd_getD_last (n : Nat) :
    ((EMA.applyLoop sf p g (n + 1)).2).getD n 0 =
      if (n : Int) < p then ((EMA.applyLoop sf p g n).1 + g n) / ((n : ℚ) + 1)
      else g n * sf + (((EMA.applyLoop sf p g n).2).getD (n - 1) 0) * (1 - sf) := by
  have hlen : ((EMA.applyLoop sf p g n).2).length = n := applyLoop_snd_length sf p g n
  have hgetD : ∀ (l : List ℚ) (x : ℚ), l.length = n → (l ++ [x]).getD n 0 = x := by
    intro l x hl
    subst hl
    simp [List.getD_append_right]
  rw [applyLoop_succ_def]
  split
  · exact hgetD _ _ hlen
  · exact hgetD _ _ hlen

theorem applyLoop_value (hp : 1 ≤ p) (n i : Nat) (hi : i < n) :
    ((EMA.applyLoop sf p g n).2).getD i 0 =
      if (i : Int) < p then
        (((List.range (i + 1)).map g).sum) / ((i : ℚ) + 1)
      else
        g i * sf + (((EMA.applyLoop sf p g n).2).getD (i - 1) 0) * (1 - sf) := by
  induction n with
  | zero => omega
  | succ m ih =>
    by_cases him : i < m
    · rw [applyLoop_snd_getD_stable sf p g m i him, ih him]
      split
      · rfl
      · rename_i hge
        have hi1 : i - 1 < m := by omega
        rw [applyLoop_snd_getD_stable sf p g m (i - 1) hi1]
    · have hieq : i = m := by omega
      subst hieq
      rw [applyLoop_snd_getD_last sf p g i]
      split
      · rename_i hlt
        have hsum := applyLoop_fst_sum sf p g (by omega) i
        have hmin : min i p.toNat = i := by omega
        rw [hsum, hmin, List.range_succ]
        simp [List.sum_append]
      · rename_i hge
        have him1 : i - 1 < i := by omega
        rw [applyLoop_snd_getD_stable sf p g i (i - 1) him1]

end EmaLemmas

theorem sum_take_eq_range_sum (l : List ℚ) (k : Nat) (hk : k ≤ l.length) :
    (l.take k).sum = ((List.range k).map (fun j => l.getD j 0)).sum := by
  induction k with
  | zero => simp
  | succ m ih =>
    have hm : m < l.length := by omega
    rw [List.take_succ, List.range_succ]
    simp only [List.map_append, List.sum_append, List.map_cons, List.map_nil,
      List.sum_cons, List.sum_nil]
    rw [ih (by omega)]
    have : l[m]?.toList.sum = l.getD m 0 := by
      simp [List.getElem?_eq_getElem hm, List.getD]
    rw [this]
    ring

/-- The per-bar values `EMA.Apply` writes for a target series: the window is
the series' length and `getTarget i` reads the series. -/
def emaVals (s p : Int) (targets : List ℚ) : List ℚ :=
  EMA.Apply ⟨s, p⟩ targets.length (fun i => targets.getD i 0)

/-- C8: for `periodLength = p ≥ 1` and smoothing constant `s`, the value the
EMA indicator writes at each index `i < p` is the running simple average of
the first `i+1` target values, and the value at each index `i ≥ p` is
`target[i] * sf + value[i-1] * (1 - sf)` with `sf = s / (p + 1)`; in
particular for `p = 3` on targets `[10, 20, 30, 40, 50]` the first three
values are `10, 15, 20`. -/
theorem c8_ema_warmup_and_recurrence (s p : Int) (targets : List ℚ)
    (hp : 1 ≤ p) :
    ((emaVals s p targets).length = targets.length ∧
     (∀ i, i < targets.length → (i : Int) < p →
        (emaVals s p targets).getD i 0 =
          (targets.take (i + 1)).sum / ((i : ℚ) + 1)) ∧
     (∀ i, i < targets.length → p ≤ (i : Int) →
        (emaVals s p targets).getD i 0 =
          targets.getD i 0 * ((s : ℚ) / ((p : ℚ) + 1)) +
            (emaVals s p targets).getD (i - 1) 0 *
              (1 - (s : ℚ) / ((p : ℚ) + 1)))) ∧
    (emaVals 2 3 [10, 20, 30, 40, 50]).take 3 = [10, 15, 20] := by
  constructor
  · refine ⟨applyLoop_snd_length _ _ _ _, ?_, ?_⟩
    · intro i hi hip
      have h := applyLoop_value ((s : ℚ) / ((p : ℚ) + 1)) p
        (fun j => targets.getD j 0) hp targets.length i hi
      rw [if_pos hip] at h
      rw [emaVals, EMA.Apply, h, sum_take_eq_range_sum targets (i + 1) (by omega)]
    · intro i hi hip
      have h := applyLoop_value ((s : ℚ) / ((p : ℚ) + 1)) p
        (fun j => targets.getD j 0) hp targets.length i hi
      rw [if_neg (by omega)] at h
      rw [emaVals, EMA.Apply, h]
  · norm_num [emaVals, EMA.Apply, EMA.applyLoop]

/-- C8 witnessed at the spec's concrete example: period 3, smoothing 2,
targets `[10, 20, 30, 40, 50]`; index 2 is in the warm-up phase with value
`(10+20+30)/3 = 20`, and index 4 follows the recurrence. -/
theorem c8_ema_warmup_and_recurrence_witness :
    (1 : Int) ≤ 3 ∧
    (emaVals 2 3 [10, 20, 30, 40, 50]).getD 2 0 =
      (([10, 20, 30, 40, 50] : List ℚ).take 3).sum / ((2 : ℚ) + 1) ∧
    (emaVals 2 3 [10, 20, 30, 40, 50]).getD 4 0 =
      ([10, 20, 30, 40, 50] : List ℚ).getD 4 0 * ((2 : ℚ) / ((3 : ℚ) + 1)) +
        (emaVals 2 3 [10, 20, 30, 40, 50]).getD 3 0 *
          (1 - (2 : ℚ) / ((3 : ℚ) + 1)) := by
  have h := c8_ema_warmup_and_recurrence 2 3 [10, 20, 30, 40, 50] (by norm_num)
  refine ⟨by norm_num, ?_, ?_⟩
  · exact (h.1.2.1 2 (by norm_num) (by norm_num))
  · exact (h.1.2.2 4 (by norm_num) (by norm_num))

/-! ## Claim C5: binary-search correctness of `GetClosestRowBefore` -/

/-- The row sequence invariant: strictly sorted ascending by date (hence no
two rows share a date). -/
def RowsSorted (rows : List Row) : Prop :=
  List.Pairwise (fun a b => a.Date < b.Date) rows

instance (rows : List Row) : Decidable (RowsSorted rows) := by
  unfold RowsSorted
  exact List.instDecidablePairwise rows

theorem rowsSorted_get_lt {rows : List Row} (hs : RowsSorted rows)
    {i j : Nat} (hi : i < rows.length) (hj : j < rows.length) (hij : i < j) :
    (rows.get ⟨i, hi⟩).Date < (rows.get ⟨j, hj⟩).Date := by
  exact List.pairwise_iff_get.mp hs ⟨i, hi⟩ ⟨j, hj⟩ hij

/-- What `GetClosestRowBefore rows d` must return: the sentinel `(-1, none)`
together with every row dated after `d`, or the index and row of the greatest
row date `≤ d` (every later row dated after `d`). -/
def gcrbSpec (rows : List Row) (d : Int) (res : Int × Option Row) : Prop :=
  (res.1 = -1 ∧ res.2 = none ∧ ∀ r ∈ rows, d < r.Date) ∨
  (∃ k : Nat, ∃ hk : k < rows.length,
    res = ((k : Int), some (rows.get ⟨k, hk⟩)) ∧
    (rows.get ⟨k, hk⟩).Date ≤ d ∧
    ∀ j, ∀ hj : j < rows.length, k < j → d < (rows.get ⟨j, hj⟩).Date)

theorem gcrbLoop_exit (rows : List Row) (target : Int) (left right : Int)
    (closest : Option Row) (hexit : ¬(left ≤ right)) (hlr : left ≤ right + 1)
    (_hr : right < (rows.length : Int))
    (hhi : ∀ j : Nat, ∀ hj : j < rows.length, right < (j : Int) →
      target < (rows.get ⟨j, hj⟩).Date)
    (hc : (closest = none ∧ left = 0) ∨
      (∃ c, closest = some c ∧ 1 ≤ left ∧
        ∃ hk : (left - 1).toNat < rows.length,
          c = rows.get ⟨(left - 1).toNat, hk⟩ ∧ c.Date < target)) :
    gcrbSpec rows target (gcrbLoop rows target left right closest) := by
  rw [gcrbLoop.eq_def, dif_neg hexit]
  rcases hc with ⟨hcn, hl0⟩ | ⟨c, hcs, hl1, hk, hcval, hclt⟩
  · subst hcn
    left
    refine ⟨rfl, rfl, ?_⟩
    intro r hr'
    obtain ⟨j, hj, rfl⟩ := List.mem_iff_get.mp hr'
    exact hhi j j.isLt (by omega)
  · subst hcs
    right
    refine ⟨(left - 1).toNat, hk, ?_, ?_, ?_⟩
    · rw [hcval]
      simp only [Prod.mk.injEq]
      exact ⟨by omega, by trivial⟩
    · rw [hcval] at hclt
      omega
    · intro j hj hjgt
      exact hhi j hj (by omega)

theorem gcrbLoop_correct (rows : List Row) (target : Int) (hs : RowsSorted rows) :
    ∀ (n : Nat) (left right : Int) (closest : Option Row),
      (right + 1 - left).toNat ≤ n →
      0 ≤ left → right < (rows.length : Int) → left ≤ right + 1 →
      (∀ j : Nat, ∀ hj : j < rows.length, (j : Int) < left →
        (rows.get ⟨j, hj⟩).Date < target) →
      (∀ j : Nat, ∀ hj : j < rows.length, right < (j : Int) →
        target < (rows.get ⟨j, hj⟩).Date) →
      ((closest = none ∧ left = 0) ∨
        (∃ c, closest = some c ∧ 1 ≤ left ∧
          ∃ hk : (left - 1).toNat < rows.length,
            c = rows.get ⟨(left - 1).toNat, hk⟩ ∧ c.Date < target)) →
      gcrbSpec rows target (gcrbLoop rows target left right closest) := by
  intro n
  induction n with
  | zero =>
    intro left right closest hfuel hl hr hlr hlo hhi hc
    exact gcrbLoop_exit rows target left right closest (by omega) hlr hr hhi hc
  | succ m ih =>
    intro left right closest hfuel hl hr hlr hlo hhi hc
    by_cases hle : left ≤ right
    · have hmidlo : left ≤ left + (right - left) / 2 := by omega
      have hmidhi : left + (right - left) / 2 ≤ right := by omega
      have hmidnat : (left + (right - left) / 2).toNat < rows.length := by omega
      have hgetD : rows.getD (left + (right - left) / 2).toNat ⟨0, []⟩ =
          rows.get ⟨(left + (right - left) / 2).toNat, hmidnat⟩ := by
        rw [List.getD_eq_getElem?_getD, List.getElem?_eq_getElem hmidnat]
        rfl
      rw [gcrbLoop.eq_def, dif_pos hle]
      simp only [hgetD]
      by_cases heq :
          (rows.get ⟨(left + (right - left) / 2).toNat, hmidnat⟩).Date = target
      · rw [if_pos heq]
        right
        refine ⟨(left + (right - left) / 2).toNat, hmidnat, ?_, ?_, ?_⟩
        · simp only [Prod.mk.injEq]
          exact ⟨by omega, by trivial⟩
        · exact le_of_eq heq
        · intro j hj hjgt
          have := rowsSorted_get_lt hs hmidnat hj hjgt
          omega
      · rw [if_neg heq]
        by_cases hlt :
            (rows.get ⟨(left + (right - left) / 2).toNat, hmidnat⟩).Date < target
        · rw [if_pos hlt]
          have hfuel2 : (right + 1 - (left + (right - left) / 2 + 1)).toNat ≤ m := by
            clear hc hlo hhi hgetD heq hlt
            omega
          have hl2 : 0 ≤ left + (right - left) / 2 + 1 := by
            clear hc hlo hhi hgetD heq hlt
            omega
          have hlr2 : left + (right - left) / 2 + 1 ≤ right + 1 := by
            clear hc hlo hhi hgetD heq hlt
            omega
          refine ih (left + (right - left) / 2 + 1) right
            (some (rows.get ⟨(left + (right - left) / 2).toNat, hmidnat⟩))
            hfuel2 hl2 hr hlr2 ?_ hhi ?_
          · intro j hj hjlt
            by_cases hjold : (j : Int) < left
            · exact hlo j hj hjold
            · rcases Nat.lt_or_ge j (left + (right - left) / 2).toNat with hjm | hjm
              · have := rowsSorted_get_lt hs hj hmidnat hjm
                omega
              · have : j = (left + (right - left) / 2).toNat := by omega
                subst this
                exact hlt
          · right
            refine ⟨rows.get ⟨(left + (right - left) / 2).toNat, hmidnat⟩,
              rfl, by omega, ?_⟩
            have hsame : (left + (right - left) / 2 + 1 - 1).toNat =
                (left + (right - left) / 2).toNat := by omega
            rw [hsame]
            exact ⟨hmidnat, rfl, hlt⟩
        · rw [if_neg hlt]
          have hfuel2 : (left + (right - left) / 2 - 1 + 1 - left).toNat ≤ m := by
            clear hc hlo hhi hgetD heq hlt
            omega
          have hr2 : left + (right - left) / 2 - 1 < (rows.length : Int) := by
            clear hc hlo hhi hgetD heq hlt
            omega
          have hlr2 : left ≤ left + (right - left) / 2 - 1 + 1 := by
            clear hc hlo hhi hgetD heq hlt
            omega
          refine ih left (left + (right - left) / 2 - 1) closest
            hfuel2 hl hr2 hlr2 hlo ?_ hc
          intro j hj hjgt
          by_cases hjold : right < (j : Int)
          · exact hhi j hj hjold
          · rcases Nat.lt_or_ge (left + (right - left) / 2).toNat j with hjm | hjm
            · have := rowsSorted_get_lt hs hmidnat hj hjm
              omega
            · have : j = (left + (right - left) / 2).toNat := by omega
              subst this
              omega
    · exact gcrbLoop_exit rows target left right closest hle hlr hr hhi hc

/-- `GetClosestRowBefore` satisfies `gcrbSpec` on strictly date-sorted rows
(helper shared by the merge-loop development). -/
theorem getClosestRowBefore_spec (h : History) (d : Int)
    (hs : RowsSorted h.Rows) :
    gcrbSpec h.Rows d (h.GetClosestRowBefore d) := by
  unfold History.GetClosestRowBefore
  by_cases hemp : h.Rows.length = 0
  · rw [if_pos hemp]
    left
    refine ⟨rfl, rfl, ?_⟩
    intro r hr
    rw [List.length_eq_zero] at hemp
    simp [hemp] at hr
  · rw [if_neg hemp]
    refine gcrbLoop_correct h.Rows d hs h.Rows.length 0 ((h.Rows.length : Int) - 1)
      none (by omega) (by omega) (by omega) (by omega) ?_ ?_ (Or.inl ⟨rfl, rfl⟩)
    · intro j hj hjlt
      omega
    · intro j hj hjgt
      omega

/-- C5: on a strictly date-sorted row sequence, `GetClosestRowBefore`
returns the index and row of the row with the greatest date `≤` the query
date, and returns the sentinel `(-1, none)` exactly when the sequence is
empty or every row's date is after the query date. -/
theorem c5_getClosestRowBefore_correct (h : History) (d : Int)
    (hs : RowsSorted h.Rows) :
    gcrbSpec h.Rows d (h.GetClosestRowBefore d) :=
  getClosestRowBefore_spec h d hs

/-- C5 witnessed concretely: querying date 2 on rows dated 1 and 3 finds
index 0 (the row dated 1). -/
theorem c5_getClosestRowBefore_correct_witness :
    RowsSorted historyA13.Rows ∧
    gcrbSpec historyA13.Rows 2 (historyA13.GetClosestRowBefore 2) :=
  ⟨by decide, c5_getClosestRowBefore_correct historyA13 2 (by decide)⟩

/-! ## Functional description of the `addData` merge loop

`processBar` tracks a cursor; the proofs below replace it with a cursor-free
description: every bar is stored into the first row dated at or after the
bar's date (appending a fresh row when there is none), except that a first
bar dated before every existing row gets a fresh row spliced in at the
front. -/

/-- The sorted-bars assumption of `mergeTickerBars`: strictly ascending
dates, no duplicates. -/
def PeriodsSorted (ps : List PackedPeriod) : Prop :=
  List.Pairwise (fun p q => p.Date < q.Date) ps

instance (ps : List PackedPeriod) : Decidable (PeriodsSorted ps) := by
  unfold PeriodsSorted
  exact List.instDecidablePairwise ps

/-- Index of the first row dated `≥ d`, if any. -/
def firstIdxGE (d : Int) : List Row → Option Nat
  | [] => none
  | r :: rest => if d ≤ r.Date then some 0 else (firstIdxGE d rest).map (· + 1)

/-- Store `p`'s fresh bar into the first row dated `≥ p.Date`, appending a
new row holding just that bar when every row is dated earlier. -/
def storeFirstGE (t : String) (rows : List Row) (p : PackedPeriod) : List Row :=
  match firstIdxGE p.Date rows with
  | some j => storeAt rows j t (freshBar p)
  | none => rows ++ [⟨p.Date, [(t, freshBar p)]⟩]

/-- The starting row list of a merge: a fresh empty row is spliced in at the
front when the first bar is dated before every existing row (the `-1` cursor
sentinel of the code). -/
def mergeBase (rows : List Row) (p₀ : PackedPeriod) : List Row :=
  if rows.all (fun r => decide (p₀.Date < r.Date)) then emptyRow p₀.Date :: rows
  else rows

/-- Cursor-free description of the whole merge loop. -/
def mergeRows (t : String) (rows : List Row) : List PackedPeriod → List Row
  | [] => rows
  | p₀ :: rest => (p₀ :: rest).foldl (storeFirstGE t) (mergeBase rows p₀)

/-! ### `firstIdxGE` lemmas -/

theorem firstIdxGE_some_spec {d : Int} {rows : List Row} {j : Nat}
    (h : firstIdxGE d rows = some j) :
    ∃ hj : j < rows.length, d ≤ (rows.get ⟨j, hj⟩).Date ∧
      ∀ m, ∀ hm : m < rows.length, m < j → (rows.get ⟨m, hm⟩).Date < d := by
  induction rows generalizing j with
  | nil => simp [firstIdxGE] at h
  | cons r rest ih =>
    by_cases hd : d ≤ r.Date
    · simp only [firstIdxGE, if_pos hd] at h
      cases h
      exact ⟨by simp, hd, by omega⟩
    · simp only [firstIdxGE, if_neg hd, Option.map_eq_some'] at h
      obtain ⟨j', hj', rfl⟩ := h
      obtain ⟨hjl, hge, hlt⟩ := ih hj'
      refine ⟨by simp; omega, hge, ?_⟩
      intro m hm hmj
      match m with
      | 0 => simpa using (by omega : r.Date < d)
      | m' + 1 => exact hlt m' (by simpa using hm) (by omega)

theorem firstIdxGE_none_spec {d : Int} {rows : List Row}
    (h : firstIdxGE d rows = none) : ∀ r ∈ rows, r.Date < d := by
  induction rows with
  | nil => simp
  | cons r rest ih =>
    by_cases hd : d ≤ r.Date
    · simp [firstIdxGE, if_pos hd] at h
    · simp only [firstIdxGE, if_neg hd, Option.map_eq_none'] at h
      intro r' hr'
      rcases List.mem_cons.mp hr' with rfl | hmem
      · omega
      · exact ih h r' hmem

theorem firstIdxGE_eq_some {d : Int} {rows : List Row} {j : Nat}
    (hj : j < rows.length) (hge : d ≤ (rows.get ⟨j, hj⟩).Date)
    (hlt : ∀ m, ∀ hm : m < rows.length, m < j → (rows.get ⟨m, hm⟩).Date < d) :
    firstIdxGE d rows = some j := by
  induction rows generalizing j with
  | nil => simp at hj
  | cons r rest ih =>
    match j with
    | 0 =>
      have hge0 : d ≤ r.Date := hge
      simp [firstIdxGE, hge0]
    | j' + 1 =>
      have hr : r.Date < d := hlt 0 (by simp) (by omega)
      have hj' : j' < rest.length := by
        simp only [List.length_cons] at hj
        omega
      have hge' : d ≤ (rest.get ⟨j', hj'⟩).Date := hge
      have hrest : firstIdxGE d rest = some j' :=
        ih hj' hge' (fun m hm hmj => hlt (m + 1) (by simp; omega) (by omega))
      simp [firstIdxGE, hrest, show ¬d ≤ r.Date by omega]

theorem firstIdxGE_eq_none {d : Int} {rows : List Row}
    (h : ∀ r ∈ rows, r.Date < d) : firstIdxGE d rows = none := by
  induction rows with
  | nil => rfl
  | cons r rest ih =>
    have hr : r.Date < d := h r (by simp)
    have hrest := ih (fun r' hr' => h r' (by simp [hr']))
    simp [firstIdxGE, hrest, show ¬d ≤ r.Date by omega]

theorem firstIdxGE_isSome_iff {d : Int} {rows : List Row} :
    (firstIdxGE d rows).isSome ↔ ∃ r ∈ rows, d ≤ r.Date := by
  constructor
  · intro h
    rw [Option.isSome_iff_exists] at h
    obtain ⟨j, hj⟩ := h
    obtain ⟨hjl, hge, -⟩ := firstIdxGE_some_spec hj
    exact ⟨rows.get ⟨j, hjl⟩, List.get_mem rows j hjl, hge⟩
  · intro ⟨r, hr, hge⟩
    by_contra hcon
    rw [Option.not_isSome_iff_eq_none] at hcon
    have := firstIdxGE_none_spec hcon r hr
    omega

theorem firstIdxGE_mono {d d' : Int} {rows : List Row} {j j' : Nat}
    (hdd : d ≤ d') (h : firstIdxGE d rows = some j)
    (h' : firstIdxGE d' rows = some j') : j ≤ j' := by
  by_contra hcon
  obtain ⟨hjl, hge, hlt⟩ := firstIdxGE_some_spec h
  obtain ⟨hjl', hge', hlt'⟩ := firstIdxGE_some_spec h'
  have := hlt j' hjl' (by omega)
  omega

theorem firstIdxGE_append_of_some {d : Int} {rows ext : List Row} {j : Nat}
    (h : firstIdxGE d rows = some j) : firstIdxGE d (rows ++ ext) = some j := by
  induction rows generalizing j with
  | nil => simp [firstIdxGE] at h
  | cons r rest ih =>
    by_cases hd : d ≤ r.Date
    · simp only [firstIdxGE, if_pos hd] at h ⊢
      exact h
    · simp only [firstIdxGE, if_neg hd, Option.map_eq_some'] at h
      obtain ⟨j', hj', rfl⟩ := h
      have := ih hj'
      simp only [List.cons_append, firstIdxGE, if_neg hd]
      rw [show (rest.append ext) = rest ++ ext from rfl, this, Option.map_some']

/-- `firstIdxGE` only depends on the row dates. -/
theorem firstIdxGE_congr {d : Int} {rows rows' : List Row}
    (h : rows.map Row.Date = rows'.map Row.Date) :
    firstIdxGE d rows = firstIdxGE d rows' := by
  induction rows generalizing rows' with
  | nil =>
    have : rows' = [] := by
      cases rows' with
      | nil => rfl
      | cons r rest => simp at h
    simp [this]
  | cons r rest ih =>
    cases rows' with
    | nil => simp at h
    | cons r' rest' =>
      simp only [List.map_cons, List.cons.injEq] at h
      simp only [firstIdxGE, h.1, ih h.2]

/-! ### `modifyIdx` / `storeAt` lemmas -/

theorem modifyIdx_length (f : Row → Row) (rows : List Row) (j : Nat) :
    (modifyIdx f rows j).length = rows.length := by
  induction rows generalizing j with
  | nil => rfl
  | cons r rest ih =>
    match j with
    | 0 => rfl
    | j' + 1 => simp [modifyIdx, ih]

theorem modifyIdx_get_ne (f : Row → Row) (rows : List Row) (j m : Nat)
    (hm : m < rows.length) (hne : m ≠ j) :
    (modifyIdx f rows j).get ⟨m, by rw [modifyIdx_length]; exact hm⟩ =
      rows.get ⟨m, hm⟩ := by
  induction rows generalizing j m with
  | nil => simp at hm
  | cons r rest ih =>
    match j, m with
    | 0, 0 => omega
    | 0, m' + 1 => rfl
    | j' + 1, 0 => rfl
    | j' + 1, m' + 1 => exact ih j' m' (by simpa using hm) (by omega)

theorem modifyIdx_get_eq (f : Row → Row) (rows : List Row) (j : Nat)
    (hj : j < rows.length) :
    (modifyIdx f rows j).get ⟨j, by rw [modifyIdx_length]; exact hj⟩ =
      f (rows.get ⟨j, hj⟩) := by
  induction rows generalizing j with
  | nil => simp at hj
  | cons r rest ih =>
    match j with
    | 0 => rfl
    | j' + 1 => exact ih j' (by simpa using hj)

theorem storeAt_length (rows : List Row) (j : Nat) (t : String)
    (bar : TickerPeriod) : (storeAt rows j t bar).length = rows.length :=
  modifyIdx_length _ rows j

theorem storeAt_map_date (rows : List Row) (j : Nat) (t : String)
    (bar : TickerPeriod) :
    (storeAt rows j t bar).map Row.Date = rows.map Row.Date := by
  unfold storeAt
  induction rows generalizing j with
  | nil => rfl
  | cons r rest ih =>
    match j with
    | 0 => simp [modifyIdx]
    | j' + 1 => simp [modifyIdx, ih]

theorem storeAt_append_last (rows : List Row) (d : Int) (t : String)
    (bar : TickerPeriod) :
    storeAt (rows ++ [emptyRow d]) rows.length t bar =
      rows ++ [⟨d, [(t, bar)]⟩] := by
  unfold storeAt
  induction rows with
  | nil => simp [modifyIdx, emptyRow, storeAssoc]
  | cons r rest ih => simp [modifyIdx, ih]

/-! ### `advanceIdx` characterization -/

theorem advanceIdx_spec (rows : List Row) (d : Int) :
    ∀ (k i : Nat), rows.length - i ≤ k → i ≤ rows.length →
      (i ≤ advanceIdx rows d i ∧ advanceIdx rows d i ≤ rows.length ∧
       (∀ m, ∀ hm : m < rows.length, i ≤ m → m < advanceIdx rows d i →
         (rows.get ⟨m, hm⟩).Date < d) ∧
       (∀ hj : advanceIdx rows d i < rows.length,
         d ≤ (rows.get ⟨advanceIdx rows d i, hj⟩).Date)) := by
  intro k
  induction k with
  | zero =>
    intro i hk hi
    have hieq : i = rows.length := by omega
    rw [advanceIdx.eq_def, dif_neg (by omega)]
    exact ⟨le_refl _, by omega, by omega, by omega⟩
  | succ k' ih =>
    intro i hk hi
    by_cases hil : i < rows.length
    · rw [advanceIdx.eq_def, dif_pos hil]
      by_cases hdate : (rows.get ⟨i, hil⟩).Date < d
      · rw [if_pos hdate]
        obtain ⟨h1, h2, h3, h4⟩ := ih (i + 1) (by omega) (by omega)
        refine ⟨by omega, h2, ?_, h4⟩
        intro m hm him hmj
        by_cases hmi : m = i
        · subst hmi
          exact hdate
        · exact h3 m hm (by omega) hmj
      · rw [if_neg hdate]
        exact ⟨le_refl _, by omega, by omega, fun hj => by omega⟩
    · rw [advanceIdx.eq_def, dif_neg hil]
      exact ⟨le_refl _, by omega, by omega, by omega⟩

/-! ### One merge-loop iteration equals `storeFirstGE` -/

theorem processBar_eq (t : String) (rows : List Row) (p : PackedPeriod)
    (i : Nat) (hi : i < rows.length)
    (hlo : ∀ m, ∀ hm : m < rows.length, m < i → (rows.get ⟨m, hm⟩).Date < p.Date) :
    processBar t (rows, (i : Int)) p =
      (storeFirstGE t rows p, (advanceIdx rows p.Date i : Int)) ∧
    advanceIdx rows p.Date i < (storeFirstGE t rows p).length ∧
    (∀ m, ∀ hm : m < rows.length, ∀ hm' : m < (storeFirstGE t rows p).length,
      m < advanceIdx rows p.Date i →
      ((storeFirstGE t rows p).get ⟨m, hm'⟩).Date = (rows.get ⟨m, hm⟩).Date) := by
  obtain ⟨ha1, ha2, ha3, ha4⟩ :=
    advanceIdx_spec rows p.Date (rows.length - i) i (by omega) (by omega)
  have hneg : ¬((i : Int) = -1) := by omega
  have htoNat : ((i : Int)).toNat = i := by omega
  by_cases hend : advanceIdx rows p.Date i = rows.length
  · have hnone : firstIdxGE p.Date rows = none := by
      refine firstIdxGE_eq_none ?_
      intro r hr
      obtain ⟨m, hm, rfl⟩ := List.mem_iff_get.mp hr
      by_cases hmi : m < i
      · exact hlo m m.isLt hmi
      · exact ha3 m m.isLt (by omega) (by omega)
    have hsfg : storeFirstGE t rows p = rows ++ [⟨p.Date, [(t, freshBar p)]⟩] := by
      simp [storeFirstGE, hnone]
    refine ⟨?_, ?_, ?_⟩
    · simp only [processBar, if_neg hneg, htoNat, hend, eq_self_iff_true, if_true,
        storeFirstGE, hnone]
      rw [storeAt_append_last]
    · rw [hsfg]
      simp only [List.length_append, List.length_cons, List.length_nil]
      omega
    · intro m hm hm' hmj
      have key : ∀ (L : List Row), L = rows ++ [⟨p.Date, [(t, freshBar p)]⟩] →
          ∀ hm'' : m < L.length, (L.get ⟨m, hm''⟩).Date = (rows.get ⟨m, hm⟩).Date := by
        rintro L rfl hm''
        have : (rows ++ [(⟨p.Date, [(t, freshBar p)]⟩ : Row)]).get ⟨m, hm''⟩ =
            rows.get ⟨m, hm⟩ := by
          simp only [List.get_eq_getElem]
          exact List.getElem_append_left hm
        exact congrArg Row.Date this
      exact key _ hsfg hm'
  · have hlt : advanceIdx rows p.Date i < rows.length := by omega
    have hsome : firstIdxGE p.Date rows = some (advanceIdx rows p.Date i) := by
      refine firstIdxGE_eq_some hlt (ha4 hlt) ?_
      intro m hm hmj
      by_cases hmi : m < i
      · exact hlo m hm hmi
      · exact ha3 m hm (by omega) hmj
    have hsfg : storeFirstGE t rows p =
        storeAt rows (advanceIdx rows p.Date i) t (freshBar p) := by
      simp [storeFirstGE, hsome]
    refine ⟨?_, ?_, ?_⟩
    · simp only [processBar, if_neg hneg, htoNat, if_neg hend, storeFirstGE, hsome]
    · rw [hsfg, storeAt_length]
      omega
    · intro m hm hm' hmj
      have key : ∀ (L : List Row),
          L = storeAt rows (advanceIdx rows p.Date i) t (freshBar p) →
          ∀ hm'' : m < L.length, (L.get ⟨m, hm''⟩).Date = (rows.get ⟨m, hm⟩).Date := by
        rintro L rfl hm''
        exact congrArg Row.Date (modifyIdx_get_ne _ rows _ m hm (by omega))
      exact key _ hsfg hm'

/-! ### The merge loop equals folding `storeFirstGE` -/

theorem foldl_processBar_eq (t : String) :
    ∀ (ps : List PackedPeriod) (rows : List Row) (i : Nat),
      PeriodsSorted ps → i < rows.length →
      (∀ q ∈ ps, ∀ m, ∀ hm : m < rows.length, m < i →
        (rows.get ⟨m, hm⟩).Date < q.Date) →
      (ps.foldl (processBar t) (rows, (i : Int))).1 =
        ps.foldl (storeFirstGE t) rows := by
  intro ps
  induction ps with
  | nil =>
    intro rows i _ _ _
    rfl
  | cons p rest ih =>
    intro rows i hp hi hlo
    obtain ⟨hstep, hjlen, hdates⟩ := processBar_eq t rows p i hi
      (fun m hm hmi => hlo p (by simp) m hm hmi)
    rw [List.foldl_cons, List.foldl_cons, hstep]
    obtain ⟨hphead, hptail⟩ := List.pairwise_cons.mp hp
    refine ih (storeFirstGE t rows p) (advanceIdx rows p.Date i) hptail hjlen ?_
    intro q hq m hm' hmj
    have hm : m < rows.length := by
      obtain ⟨ha1, ha2, -, -⟩ :=
        advanceIdx_spec rows p.Date (rows.length - i) i (by omega) (by omega)
      omega
    rw [hdates m hm hm' hmj]
    have hmp : (rows.get ⟨m, hm⟩).Date < p.Date := by
      obtain ⟨ha1, ha2, ha3, -⟩ :=
        advanceIdx_spec rows p.Date (rows.length - i) i (by omega) (by omega)
      by_cases hmi : m < i
      · exact hlo p (by simp) m hm hmi
      · exact ha3 m hm (by omega) hmj
    have := hphead q hq
    omega

theorem processBar_neg_one (t : String) (rows : List Row) (p : PackedPeriod) :
    processBar t (rows, -1) p = (⟨p.Date, [(t, freshBar p)]⟩ :: rows, 0) := by
  have hadv : advanceIdx (emptyRow p.Date :: rows) p.Date 0 = 0 := by
    rw [advanceIdx.eq_def, dif_pos (by simp)]
    simp [emptyRow]
  simp only [processBar, eq_self_iff_true, if_true, Int.toNat_zero]
  rw [hadv, if_neg (by simp)]
  simp [storeAt, modifyIdx, emptyRow, storeAssoc]

theorem storeFirstGE_front (t : String) (rows : List Row) (p : PackedPeriod) :
    storeFirstGE t (emptyRow p.Date :: rows) p =
      ⟨p.Date, [(t, freshBar p)]⟩ :: rows := by
  have hfi : firstIdxGE p.Date (emptyRow p.Date :: rows) = some 0 := by
    simp [firstIdxGE, emptyRow]
  unfold storeFirstGE
  rw [hfi]
  simp [storeAt, modifyIdx, emptyRow, storeAssoc]

/-- The imperative merge loop of `addData` computes exactly the cursor-free
`mergeRows` description. -/
theorem addData_rows_eq (h : History) (ps : List PackedPeriod) (t : String)
    (hs : RowsSorted h.Rows) (hp : PeriodsSorted ps) :
    (h.addData ps t).Rows = mergeRows t h.Rows ps := by
  match ps with
  | [] => rfl
  | p₀ :: rest =>
    show (((p₀ :: rest).foldl (processBar t)
      (h.Rows, (h.GetClosestRowBefore p₀.Date).1))).1 = _
    rcases getClosestRowBefore_spec h p₀.Date hs with
      ⟨hi1, _, hall⟩ | ⟨k, hk, hres, hge, hafter⟩
    · -- sentinel: every row is dated after the first bar; a row is spliced in
      -- at the front
      have hcond : (h.Rows.all fun r => decide (p₀.Date < r.Date)) = true := by
        rw [List.all_eq_true]
        intro r hr
        exact decide_eq_true (hall r hr)
      have hbase : mergeBase h.Rows p₀ = emptyRow p₀.Date :: h.Rows := by
        unfold mergeBase
        simp [hcond]
      have hmr : mergeRows t h.Rows (p₀ :: rest) =
          rest.foldl (storeFirstGE t) (⟨p₀.Date, [(t, freshBar p₀)]⟩ :: h.Rows) := by
        simp only [mergeRows]
        rw [hbase, List.foldl_cons, storeFirstGE_front]
      rw [hmr, hi1, List.foldl_cons, processBar_neg_one]
      have := foldl_processBar_eq t rest
        (⟨p₀.Date, [(t, freshBar p₀)]⟩ :: h.Rows) 0
        ((List.pairwise_cons.mp hp).2) (by simp) (by omega)
      exact this
    · -- found: the cursor starts at the greatest row dated ≤ the first bar
      have hcond : (h.Rows.all fun r => decide (p₀.Date < r.Date)) = false := by
        rw [List.all_eq_false]
        refine ⟨h.Rows.get ⟨k, hk⟩, List.get_mem _ k hk, ?_⟩
        simp only [decide_eq_true_eq]
        omega
      have hbase : mergeBase h.Rows p₀ = h.Rows := by
        unfold mergeBase
        simp [hcond]
      have hmr : mergeRows t h.Rows (p₀ :: rest) =
          (p₀ :: rest).foldl (storeFirstGE t) h.Rows := by
        simp only [mergeRows]
        rw [hbase]
      rw [hmr, hres]
      refine foldl_processBar_eq t (p₀ :: rest) h.Rows k hp hk ?_
      intro q hq m hm hmk
      have hsorted := rowsSorted_get_lt hs hm hk hmk
      rcases List.mem_cons.mp hq with rfl | hqrest
      · omega
      · have := (List.pairwise_cons.mp hp).1 q hqrest
        omega

/-! ### Dates and sortedness under `storeFirstGE` -/

theorem rowsSorted_iff_map (rows : List Row) :
    RowsSorted rows ↔ (rows.map Row.Date).Pairwise (· < ·) := by
  unfold RowsSorted
  rw [List.pairwise_map]

theorem rowsSorted_of_map_eq {rows rows' : List Row}
    (h : rows'.map Row.Date = rows.map Row.Date) (hs : RowsSorted rows) :
    RowsSorted rows' := by
  rw [rowsSorted_iff_map] at hs ⊢
  rw [h]
  exact hs

theorem storeFirstGE_dates (t : String) (rows : List Row) (p : PackedPeriod) :
    (storeFirstGE t rows p).map Row.Date = rows.map Row.Date ∨
    (storeFirstGE t rows p).map Row.Date = rows.map Row.Date ++ [p.Date] := by
  unfold storeFirstGE
  cases hfi : firstIdxGE p.Date rows with
  | some j => exact Or.inl (storeAt_map_date rows j t (freshBar p))
  | none => right; simp

theorem storeFirstGE_dates_ext (t : String) (rows : List Row) (p : PackedPeriod) :
    ∃ ext, (storeFirstGE t rows p).map Row.Date = rows.map Row.Date ++ ext := by
  rcases storeFirstGE_dates t rows p with h | h
  · exact ⟨[], by simp [h]⟩
  · exact ⟨[p.Date], h⟩

theorem foldl_storeFirstGE_dates_ext (t : String) (qs : List PackedPeriod)
    (rows : List Row) :
    ∃ ext, (qs.foldl (storeFirstGE t) rows).map Row.Date =
      rows.map Row.Date ++ ext := by
  induction qs generalizing rows with
  | nil => exact ⟨[], by simp⟩
  | cons q qs' ih =>
    rw [List.foldl_cons]
    obtain ⟨ext1, h1⟩ := storeFirstGE_dates_ext t rows q
    obtain ⟨ext2, h2⟩ := ih (storeFirstGE t rows q)
    exact ⟨ext1 ++ ext2, by rw [h2, h1, List.append_assoc]⟩

theorem storeFirstGE_sorted (t : String) {rows : List Row} (p : PackedPeriod)
    (hs : RowsSorted rows) : RowsSorted (storeFirstGE t rows p) := by
  unfold storeFirstGE
  cases hfi : firstIdxGE p.Date rows with
  | some j =>
    exact rowsSorted_of_map_eq (storeAt_map_date rows j t (freshBar p)) hs
  | none =>
    have hall := firstIdxGE_none_spec hfi
    unfold RowsSorted at hs ⊢
    rw [List.pairwise_append]
    refine ⟨hs, by simp, ?_⟩
    intro a ha b hb
    simp only [List.mem_singleton] at hb
    subst hb
    exact hall a ha

theorem foldl_storeFirstGE_sorted (t : String) (qs : List PackedPeriod)
    {rows : List Row} (hs : RowsSorted rows) :
    RowsSorted (qs.foldl (storeFirstGE t) rows) := by
  induction qs generalizing rows with
  | nil => exact hs
  | cons q qs' ih => exact ih (storeFirstGE_sorted t q hs)

theorem mergeBase_sorted {rows : List Row} (p₀ : PackedPeriod)
    (hs : RowsSorted rows) : RowsSorted (mergeBase rows p₀) := by
  unfold mergeBase
  split
  · rename_i hall
    rw [List.all_eq_true] at hall
    unfold RowsSorted at hs ⊢
    rw [List.pairwise_cons]
    refine ⟨?_, hs⟩
    intro r hr
    have := hall r hr
    simp only [decide_eq_true_eq] at this
    exact this
  · exact hs

theorem mergeRows_sorted (t : String) (ps : List PackedPeriod)
    {rows : List Row} (hs : RowsSorted rows) :
    RowsSorted (mergeRows t rows ps) := by
  match ps with
  | [] => exact hs
  | p₀ :: rest =>
    simp only [mergeRows]
    exact foldl_storeFirstGE_sorted t _ (mergeBase_sorted p₀ hs)

/-! ### Claim C10: freshly stored bars -/

/-- Every row dated `d` carries the binding `t ↦ v`. -/
def HasFresh (t : String) (d : Int) (v : TickerPeriod) (rows : List Row) : Prop :=
  ∀ row ∈ rows, row.Date = d → loadAssoc row.Data t = some v

theorem mem_storeAt {rows : List Row} {j : Nat} {t : String} {bar : TickerPeriod}
    (hj : j < rows.length) {row' : Row} (hmem : row' ∈ storeAt rows j t bar) :
    row' = ⟨(rows.get ⟨j, hj⟩).Date, storeAssoc (rows.get ⟨j, hj⟩).Data t bar⟩ ∨
    ∃ m, ∃ hm : m < rows.length, m ≠ j ∧ row' = rows.get ⟨m, hm⟩ := by
  obtain ⟨m, hget⟩ := List.mem_iff_get.mp hmem
  have hmlen : (m : Nat) < rows.length := by
    have h1 := m.isLt
    have h2 := storeAt_length rows j t bar
    omega
  by_cases hmj : (m : Nat) = j
  · left
    rw [← hget]
    have hfin : m = ⟨j, by rw [storeAt_length]; exact hj⟩ := Fin.ext hmj
    rw [hfin]
    exact modifyIdx_get_eq (fun r => ⟨r.Date, storeAssoc r.Data t bar⟩) rows j hj
  · right
    refine ⟨m, hmlen, hmj, ?_⟩
    rw [← hget]
    exact modifyIdx_get_ne _ rows j m hmlen hmj

theorem storeFirstGE_establishes (t : String) {rows : List Row}
    (p : PackedPeriod) (hs : RowsSorted rows) :
    HasFresh t p.Date (freshBar p) (storeFirstGE t rows p) := by
  intro row' hmem hdate
  unfold storeFirstGE at hmem
  cases hfi : firstIdxGE p.Date rows with
  | some j =>
    rw [hfi] at hmem
    obtain ⟨hj, hge, hlt⟩ := firstIdxGE_some_spec hfi
    rcases mem_storeAt hj hmem with heq | ⟨m, hm, hmj, heq⟩
    · rw [heq]
      exact loadAssoc_storeAssoc_same _ _ _
    · -- a row dated exactly p.Date other than the stored one cannot exist:
      -- rows before j are dated < p.Date, rows after j are dated > rows[j] ≥ p.Date
      exfalso
      subst heq
      rcases Nat.lt_or_ge m j with hmlt | hmgt
      · have := hlt m hm hmlt
        omega
      · have hmgt' : j < m := by omega
        have := rowsSorted_get_lt hs hj hm hmgt'
        omega
  | none =>
    rw [hfi] at hmem
    rcases List.mem_append.mp hmem with hold | hnew
    · have := firstIdxGE_none_spec hfi row' hold
      omega
    · simp only [List.mem_singleton] at hnew
      subst hnew
      simp [loadAssoc]

theorem storeFirstGE_preserves (t : String) {rows : List Row} {d : Int}
    {v : TickerPeriod} (q : PackedPeriod) (hd : d < q.Date)
    (hP : HasFresh t d v rows) : HasFresh t d v (storeFirstGE t rows q) := by
  intro row' hmem hdate
  unfold storeFirstGE at hmem
  cases hfi : firstIdxGE q.Date rows with
  | some j =>
    rw [hfi] at hmem
    obtain ⟨hj, hge, hlt⟩ := firstIdxGE_some_spec hfi
    rcases mem_storeAt hj hmem with heq | ⟨m, hm, hmj, heq⟩
    · exfalso
      rw [heq] at hdate
      simp only at hdate
      omega
    · subst heq
      exact hP _ (List.get_mem _ m hm) hdate
  | none =>
    rw [hfi] at hmem
    rcases List.mem_append.mp hmem with hold | hnew
    · exact hP _ hold hdate
    · exfalso
      simp only [List.mem_singleton] at hnew
      subst hnew
      simp only at hdate
      omega

theorem foldl_storeFirstGE_preserves (t : String) (qs : List PackedPeriod)
    {rows : List Row} {d : Int} {v : TickerPeriod}
    (hq : ∀ q ∈ qs, d < q.Date) (hP : HasFresh t d v rows) :
    HasFresh t d v (qs.foldl (storeFirstGE t) rows) := by
  induction qs generalizing rows with
  | nil => exact hP
  | cons q qs' ih =>
    rw [List.foldl_cons]
    exact ih (fun q' hq' => hq q' (by simp [hq']))
      (storeFirstGE_preserves t q (hq q (by simp)) hP)

theorem foldl_storeFirstGE_hasFresh (t : String) (ps : List PackedPeriod)
    {rows : List Row} (hs : RowsSorted rows) (hp : PeriodsSorted ps) :
    ∀ p ∈ ps, HasFresh t p.Date (freshBar p) (ps.foldl (storeFirstGE t) rows) := by
  induction ps generalizing rows with
  | nil => simp
  | cons p₀ rest ih =>
    obtain ⟨hhead, htail⟩ := List.pairwise_cons.mp hp
    intro p hpmem
    rw [List.foldl_cons]
    rcases List.mem_cons.mp hpmem with rfl | hrest
    · exact foldl_storeFirstGE_preserves t rest hhead
        (storeFirstGE_establishes t p hs)
    · exact ih (storeFirstGE_sorted t p₀ hs) htail p hrest

/-- C10: under the sorted-rows invariant and for strictly date-sorted bars,
every row of the merged store whose date equals a merged bar's date holds,
for the merged ticker, exactly the freshly constructed bar — all price
fields copied from the fetched bar and an empty indicator map.  Re-ingesting
a ticker therefore discards previously computed indicator values on
overlapping dates instead of mutating the old bar in place. -/
theorem c10_addData_stores_fresh_bars (h : History) (ps : List PackedPeriod)
    (t : String) (hs : RowsSorted h.Rows) (hp : PeriodsSorted ps) :
    ∀ p ∈ ps, ∀ row' ∈ (h.addData ps t).Rows, row'.Date = p.Date →
      loadAssoc row'.Data t = some (freshBar p) ∧
      (freshBar p).Indicators = [] := by
  intro p hpmem row' hmem hdate
  rw [addData_rows_eq h ps t hs hp] at hmem
  refine ⟨?_, rfl⟩
  match ps, hpmem with
  | p₀ :: rest, hpmem =>
    simp only [mergeRows] at hmem
    exact foldl_storeFirstGE_hasFresh t (p₀ :: rest)
      (mergeBase_sorted p₀ hs) hp p hpmem row' hmem hdate

/-- C10 witnessed at a concrete merge: ticker "B", one bar dated 3, merged
into rows dated 1 and 3. -/
theorem c10_addData_stores_fresh_bars_witness :
    RowsSorted historyA13.Rows ∧ PeriodsSorted [zeroBar 3] ∧
    (∀ row' ∈ (historyA13.addData [zeroBar 3] "B").Rows,
      row'.Date = (zeroBar 3).Date →
      loadAssoc row'.Data "B" = some (freshBar (zeroBar 3)) ∧
      (freshBar (zeroBar 3)).Indicators = []) :=
  ⟨by decide, by decide, fun row' hmem hdate =>
    c10_addData_stores_fresh_bars historyA13 [zeroBar 3] "B" (by decide)
      (by decide) (zeroBar 3) (by simp) row' hmem hdate⟩

/-! ### Claim C7: idempotence lemmas -/

theorem storeAssoc_storeAssoc {β : Type} (d : List (String × β)) (k : String)
    (v v' : β) : storeAssoc (storeAssoc d k v) k v' = storeAssoc d k v' := by
  induction d with
  | nil => simp [storeAssoc]
  | cons kv rest ih =>
    by_cases hk : kv.1 = k
    · simp [storeAssoc, hk]
    · simp [storeAssoc, hk, ih]

theorem row_ext {a b : Row} (h1 : a.Date = b.Date) (h2 : a.Data = b.Data) :
    a = b := by
  cases a
  cases b
  simp only at h1 h2
  rw [h1, h2]

theorem get_append_length (l : List Row) (x : Row)
    (h : l.length < (l ++ [x]).length) : (l ++ [x]).get ⟨l.length, h⟩ = x := by
  induction l with
  | nil => rfl
  | cons r rest ih => exact ih (by simp)

theorem get_date_of_map_eq {A B : List Row}
    (h : A.map Row.Date = B.map Row.Date) (m : Nat) (hmA : m < A.length)
    (hmB : m < B.length) : (A.get ⟨m, hmA⟩).Date = (B.get ⟨m, hmB⟩).Date := by
  have hA : (A.map Row.Date)[m]? = some (A.get ⟨m, hmA⟩).Date := by
    rw [List.getElem?_map, List.getElem?_eq_getElem hmA]
    rfl
  have hB : (B.map Row.Date)[m]? = some (B.get ⟨m, hmB⟩).Date := by
    rw [List.getElem?_map, List.getElem?_eq_getElem hmB]
    rfl
  rw [h] at hA
  rw [hA] at hB
  exact (Option.some.injEq _ _ ▸ hB :)

/-- `firstIdxGE` results survive any extension of the row list that only
appends dates at the end. -/
theorem firstIdxGE_of_dates_ext {rows rowsF : List Row} {ext : List Int}
    (hd : rowsF.map Row.Date = rows.map Row.Date ++ ext) {d : Int} {j : Nat}
    (h : firstIdxGE d rows = some j) : firstIdxGE d rowsF = some j := by
  induction rows generalizing rowsF j with
  | nil => simp [firstIdxGE] at h
  | cons r rest ih =>
    cases rowsF with
    | nil => simp at hd
    | cons rF restF =>
      simp only [List.map_cons, List.cons_append, List.cons.injEq] at hd
      by_cases hge : d ≤ r.Date
      · simp only [firstIdxGE, if_pos hge] at h
        cases h
        simp only [firstIdxGE, if_pos (hd.1 ▸ hge)]
      · simp only [firstIdxGE, if_neg hge, Option.map_eq_some'] at h
        obtain ⟨j', hj', rfl⟩ := h
        have := ih hd.2 hj'
        simp only [firstIdxGE, if_neg (hd.1 ▸ hge), this, Option.map_some']

theorem storeFirstGE_exists_ge (t : String) (rows : List Row)
    (p : PackedPeriod) :
    ∃ d ∈ (storeFirstGE t rows p).map Row.Date, p.Date ≤ d := by
  unfold storeFirstGE
  cases hfi : firstIdxGE p.Date rows with
  | some j =>
    obtain ⟨hj, hge, -⟩ := firstIdxGE_some_spec hfi
    refine ⟨(rows.get ⟨j, hj⟩).Date, ?_, hge⟩
    rw [storeAt_map_date]
    exact List.mem_map_of_mem Row.Date (List.get_mem rows j hj)
  | none =>
    refine ⟨p.Date, ?_, le_refl _⟩
    simp

theorem mem_dates_preserved (t : String) (qs : List PackedPeriod)
    (rows : List Row) {d : Int} (hd : d ∈ rows.map Row.Date) :
    d ∈ (qs.foldl (storeFirstGE t) rows).map Row.Date := by
  obtain ⟨ext, hext⟩ := foldl_storeFirstGE_dates_ext t qs rows
  rw [hext]
  exact List.mem_append_left _ hd

theorem foldl_storeFirstGE_exists_ge (t : String) (ps : List PackedPeriod)
    (rows : List Row) :
    ∀ q ∈ ps, ∃ d ∈ (ps.foldl (storeFirstGE t) rows).map Row.Date,
      q.Date ≤ d := by
  induction ps generalizing rows with
  | nil => simp
  | cons p₀ rest ih =>
    intro q hq
    rw [List.foldl_cons]
    rcases List.mem_cons.mp hq with rfl | hqrest
    · obtain ⟨d, hdmem, hdge⟩ := storeFirstGE_exists_ge t rows q
      exact ⟨d, mem_dates_preserved t rest _ hdmem, hdge⟩
    · exact ih (storeFirstGE t rows p₀) q hqrest

theorem storeFirstGE_eq_some {t : String} {rows : List Row} {p : PackedPeriod}
    {j : Nat} (h : firstIdxGE p.Date rows = some j) :
    storeFirstGE t rows p = storeAt rows j t (freshBar p) := by
  unfold storeFirstGE
  rw [h]

theorem storeFirstGE_eq_none {t : String} {rows : List Row} {p : PackedPeriod}
    (h : firstIdxGE p.Date rows = none) :
    storeFirstGE t rows p = rows ++ [⟨p.Date, [(t, freshBar p)]⟩] := by
  unfold storeFirstGE
  rw [h]

/-- After the whole fold, the row at the first index dated `≥ p.Date` holds
`p`'s fresh bar, provided `p` is the latest bar targeting that index. -/
theorem foldl_storeFirstGE_maxEntry (t : String) (ps : List PackedPeriod)
    {rows : List Row} (hp : PeriodsSorted ps) :
    ∀ p ∈ ps, ∀ j,
      firstIdxGE p.Date (ps.foldl (storeFirstGE t) rows) = some j →
      (∀ q ∈ ps, firstIdxGE q.Date (ps.foldl (storeFirstGE t) rows) = some j →
        q.Date ≤ p.Date) →
      ∃ hj : j < (ps.foldl (storeFirstGE t) rows).length,
        loadAssoc (((ps.foldl (storeFirstGE t) rows).get ⟨j, hj⟩).Data) t =
          some (freshBar p) := by
  induction ps using List.reverseRecOn with
  | nil => simp
  | append_singleton ps' r ih =>
    have hfold : (ps' ++ [r]).foldl (storeFirstGE t) rows =
        storeFirstGE t (ps'.foldl (storeFirstGE t) rows) r := by
      rw [List.foldl_append, List.foldl_cons, List.foldl_nil]
    obtain ⟨hp', hr', hcross⟩ := List.pairwise_append.mp hp
    have hcross' : ∀ q ∈ ps', q.Date < r.Date := by
      intro q hq
      exact hcross q hq r (by simp)
    intro p hpmem j hfi hmax
    rw [hfold] at hfi hmax ⊢
    rcases List.mem_append.mp hpmem with hpps | hpr
    · -- p is an earlier bar; its slot is not touched by r's store
      have hex : (firstIdxGE p.Date (ps'.foldl (storeFirstGE t) rows)).isSome := by
        rw [firstIdxGE_isSome_iff]
        obtain ⟨d, hdmem, hdge⟩ := foldl_storeFirstGE_exists_ge t ps' rows p hpps
        obtain ⟨row', hrow', hrowd⟩ := List.mem_map.mp hdmem
        exact ⟨row', hrow', hrowd ▸ hdge⟩
      obtain ⟨jp, hjp⟩ := Option.isSome_iff_exists.mp hex
      obtain ⟨ext, hext⟩ :=
        storeFirstGE_dates_ext t (ps'.foldl (storeFirstGE t) rows) r
      have hstable : firstIdxGE p.Date
          (storeFirstGE t (ps'.foldl (storeFirstGE t) rows) r) = some jp :=
        firstIdxGE_of_dates_ext hext hjp
      have hjeq : j = jp := by
        rw [hfi] at hstable
        exact Option.some_inj.mp hstable
      subst hjeq
      have hmax' : ∀ q ∈ ps',
          firstIdxGE q.Date (ps'.foldl (storeFirstGE t) rows) = some j →
          q.Date ≤ p.Date := by
        intro q hq hfq
        exact hmax q (List.mem_append_left _ hq) (firstIdxGE_of_dates_ext hext hfq)
      obtain ⟨hj1, hload⟩ := ih hp' p hpps j hjp hmax'
      -- r's store does not touch index j
      have hrnotj : ∀ jr, firstIdxGE r.Date (ps'.foldl (storeFirstGE t) rows) =
          some jr → jr ≠ j := by
        intro jr hjr hcon
        subst hcon
        have := hmax r (List.mem_append_right _ (by simp))
          (firstIdxGE_of_dates_ext hext hjr)
        have := hcross' p hpps
        omega
      cases hfir : firstIdxGE r.Date (ps'.foldl (storeFirstGE t) rows) with
      | some jr =>
        have hjr := hrnotj jr hfir
        rw [storeFirstGE_eq_some hfir]
        have hlen : j < (storeAt (ps'.foldl (storeFirstGE t) rows) jr t
            (freshBar r)).length := by
          rw [storeAt_length]
          exact hj1
        refine ⟨hlen, ?_⟩
        have hne := modifyIdx_get_ne
          (fun row => ⟨row.Date, storeAssoc row.Data t (freshBar r)⟩)
          (ps'.foldl (storeFirstGE t) rows) jr j hj1 (by omega)
        have hrow : (storeAt (ps'.foldl (storeFirstGE t) rows) jr t
            (freshBar r)).get ⟨j, hlen⟩ =
            (ps'.foldl (storeFirstGE t) rows).get ⟨j, hj1⟩ := hne
        rw [hrow]
        exact hload
      | none =>
        rw [storeFirstGE_eq_none hfir]
        have hlen : j < ((ps'.foldl (storeFirstGE t) rows) ++
            [(⟨r.Date, [(t, freshBar r)]⟩ : Row)]).length := by
          simp only [List.length_append, List.length_cons, List.length_nil]
          omega
        refine ⟨hlen, ?_⟩
        have hgeteq : ((ps'.foldl (storeFirstGE t) rows) ++
            [(⟨r.Date, [(t, freshBar r)]⟩ : Row)]).get ⟨j, hlen⟩ =
            (ps'.foldl (storeFirstGE t) rows).get ⟨j, hj1⟩ := by
          simp only [List.get_eq_getElem]
          exact List.getElem_append_left hj1
        rw [hgeteq]
        exact hload
    · -- p = r: the store itself wrote the fresh bar at j
      simp only [List.mem_singleton] at hpr
      subst hpr
      cases hfir : firstIdxGE p.Date (ps'.foldl (storeFirstGE t) rows) with
      | some jr =>
        rw [storeFirstGE_eq_some hfir] at hfi ⊢
        obtain ⟨hjr, hge, hlt⟩ := firstIdxGE_some_spec hfir
        have hfi' : firstIdxGE p.Date (storeAt (ps'.foldl (storeFirstGE t) rows)
            jr t (freshBar p)) = some jr := by
          rw [firstIdxGE_congr (storeAt_map_date
            (ps'.foldl (storeFirstGE t) rows) jr t (freshBar p))]
          exact hfir
        have hjeq : j = jr := by
          rw [hfi] at hfi'
          exact Option.some_inj.mp hfi'
        subst hjeq
        have hlen : j < (storeAt (ps'.foldl (storeFirstGE t) rows) j t
            (freshBar p)).length := by
          rw [storeAt_length]
          exact hjr
        refine ⟨hlen, ?_⟩
        have heq := modifyIdx_get_eq
          (fun row => ⟨row.Date, storeAssoc row.Data t (freshBar p)⟩)
          (ps'.foldl (storeFirstGE t) rows) j hjr
        have hrow : (storeAt (ps'.foldl (storeFirstGE t) rows) j t
            (freshBar p)).get ⟨j, hlen⟩ =
            ⟨((ps'.foldl (storeFirstGE t) rows).get ⟨j, hjr⟩).Date,
              storeAssoc ((ps'.foldl (storeFirstGE t) rows).get ⟨j, hjr⟩).Data t
                (freshBar p)⟩ := heq
        rw [hrow]
        exact loadAssoc_storeAssoc_same _ _ _
      | none =>
        rw [storeFirstGE_eq_none hfir] at hfi ⊢
        have hall := firstIdxGE_none_spec hfir
        have hlast : firstIdxGE p.Date ((ps'.foldl (storeFirstGE t) rows) ++
            [⟨p.Date, [(t, freshBar p)]⟩]) =
            some (ps'.foldl (storeFirstGE t) rows).length := by
          refine firstIdxGE_eq_some (by simp) ?_ ?_
          · rw [get_append_length]
          · intro m hm hmlen
            have hm' : m < (ps'.foldl (storeFirstGE t) rows).length := by
              simp only [List.length_append, List.length_cons,
                List.length_nil] at hm hmlen ⊢
              omega
            have hgeteq : ((ps'.foldl (storeFirstGE t) rows) ++
                [(⟨p.Date, [(t, freshBar p)]⟩ : Row)]).get ⟨m, hm⟩ =
                (ps'.foldl (storeFirstGE t) rows).get ⟨m, hm'⟩ := by
              simp only [List.get_eq_getElem]
              exact List.getElem_append_left hm'
            rw [hgeteq]
            exact hall _ (List.get_mem _ m hm')
        have hjeq : j = (ps'.foldl (storeFirstGE t) rows).length := by
          rw [hfi] at hlast
          exact Option.some_inj.mp hlast
        subst hjeq
        have hlen : (ps'.foldl (storeFirstGE t) rows).length <
            ((ps'.foldl (storeFirstGE t) rows) ++
              [(⟨p.Date, [(t, freshBar p)]⟩ : Row)]).length := by
          simp
        refine ⟨hlen, ?_⟩
        rw [get_append_length]
        simp [loadAssoc]

/-- Replaying a bar list over its own merge result changes nothing: the
intermediate states may differ from `rows₁` only at the slot targeted by the
next bar to be replayed, and the final write at each slot restores the
original entry. -/
theorem foldl_storeFirstGE_idem_aux (t : String) :
    ∀ (R : List PackedPeriod) (S rows₁ : List Row),
      PeriodsSorted R →
      (∀ q ∈ R, (firstIdxGE q.Date rows₁).isSome) →
      (∀ p ∈ R, ∀ j, firstIdxGE p.Date rows₁ = some j →
        (∀ q ∈ R, firstIdxGE q.Date rows₁ = some j → q.Date ≤ p.Date) →
        ∃ hj : j < rows₁.length,
          loadAssoc ((rows₁.get ⟨j, hj⟩).Data) t = some (freshBar p)) →
      S.map Row.Date = rows₁.map Row.Date →
      (∀ m, ∀ hmS : m < S.length, ∀ hm1 : m < rows₁.length,
        S.get ⟨m, hmS⟩ = rows₁.get ⟨m, hm1⟩ ∨
        (∃ phead, R.head? = some phead ∧
          firstIdxGE phead.Date rows₁ = some m ∧
          ∃ v, (S.get ⟨m, hmS⟩).Data =
            storeAssoc ((rows₁.get ⟨m, hm1⟩).Data) t v)) →
      R.foldl (storeFirstGE t) S = rows₁ := by
  intro R
  induction R with
  | nil =>
    intro S rows₁ _ _ _ hdates hinv
    have hlen : S.length = rows₁.length := by
      have := congrArg List.length hdates
      simpa using this
    apply List.ext_get hlen
    intro m hm1 hm2
    rcases hinv m hm1 hm2 with hclean | ⟨phead, hph, -, -⟩
    · exact hclean
    · simp at hph
  | cons p R' ih =>
    intro S rows₁ hp hex hfin hdates hinv
    obtain ⟨hphead, hptail⟩ := List.pairwise_cons.mp hp
    obtain ⟨jp, hjp⟩ := Option.isSome_iff_exists.mp (hex p (by simp))
    obtain ⟨hjp1, hjpge, hjplt⟩ := firstIdxGE_some_spec hjp
    have hjpS : firstIdxGE p.Date S = some jp := by
      rw [firstIdxGE_congr hdates]
      exact hjp
    have hlenSr : S.length = rows₁.length := by
      have := congrArg List.length hdates
      simpa using this
    have hjpSlen : jp < S.length := by omega
    rw [List.foldl_cons, storeFirstGE_eq_some hjpS]
    have hfin' : ∀ p' ∈ p :: R', ∀ j, firstIdxGE p'.Date rows₁ = some j →
        (∀ q ∈ p :: R', firstIdxGE q.Date rows₁ = some j → q.Date ≤ p'.Date) →
        ∃ hj : j < rows₁.length,
          loadAssoc ((rows₁.get ⟨j, hj⟩).Data) t = some (freshBar p') := hfin
    -- the data written at slot jp collapses to a single store over rows₁
    have hSdata : ∀ hmS : jp < S.length,
        storeAssoc (S.get ⟨jp, hmS⟩).Data t (freshBar p) =
          storeAssoc ((rows₁.get ⟨jp, hjp1⟩).Data) t (freshBar p) := by
      intro hmS
      rcases hinv jp hmS hjp1 with hclean | ⟨phead, hph, hphfi, v, hdata⟩
      · rw [hclean]
      · rw [hdata, storeAssoc_storeAssoc]
    have hgetS' : (storeAt S jp t (freshBar p)).get
        ⟨jp, by rw [storeAt_length]; exact hjpSlen⟩ =
        ⟨(S.get ⟨jp, hjpSlen⟩).Date, storeAssoc (S.get ⟨jp, hjpSlen⟩).Data t
          (freshBar p)⟩ :=
      modifyIdx_get_eq _ S jp hjpSlen
    have hdateeq : (S.get ⟨jp, hjpSlen⟩).Date = (rows₁.get ⟨jp, hjp1⟩).Date :=
      get_date_of_map_eq hdates jp hjpSlen hjp1
    refine ih (storeAt S jp t (freshBar p)) rows₁ hptail
      (fun q hq => hex q (by simp [hq]))
      (fun p' hp' j hj hmax' => hfin p' (by simp [hp']) j hj ?_)
      ?_ ?_
    · intro q hq hfq
      rcases List.mem_cons.mp hq with rfl | hq'
      · exact le_of_lt (hphead p' hp')
      · exact hmax' q hq' hfq
    · rw [storeAt_map_date]
      exact hdates
    · intro m hmS' hm1
      have hmS : m < S.length := by
        have := storeAt_length S jp t (freshBar p)
        omega
      by_cases hmjp : m = jp
      · subst hmjp
        -- the slot just written
        have hget : (storeAt S m t (freshBar p)).get ⟨m, hmS'⟩ =
            ⟨(S.get ⟨m, hmS⟩).Date, storeAssoc (S.get ⟨m, hmS⟩).Data t
              (freshBar p)⟩ := modifyIdx_get_eq _ S m hmS
        have hdata' : storeAssoc (S.get ⟨m, hmS⟩).Data t (freshBar p) =
            storeAssoc ((rows₁.get ⟨m, hm1⟩).Data) t (freshBar p) := hSdata hmS
        match R' with
        | [] =>
          left
          refine row_ext ?_ ?_
          · rw [hget]
            exact hdateeq
          · rw [hget]
            simp only
            rw [hdata']
            obtain ⟨hj, hload⟩ := hfin p (by simp) m hjp (by
              intro q hq hfq
              simp only [List.mem_singleton] at hq
              subst hq
              exact le_refl _)
            exact storeAssoc_same_value _ _ _ hload
        | q :: R'' =>
          obtain ⟨jq, hjq⟩ := Option.isSome_iff_exists.mp (hex q (by simp))
          by_cases hjqeq : jq = m
          · right
            refine ⟨q, rfl, hjqeq ▸ hjq, freshBar p, ?_⟩
            rw [hget]
            simp only
            exact hdata'
          · left
            -- q and all later bars target slots strictly past m, so the
            -- write just performed was the final one for this slot
            have hpq : p.Date < q.Date := hphead q (by simp)
            have hmono : m ≤ jq := firstIdxGE_mono (le_of_lt hpq) hjp hjq
            have hmlt : m < jq := by omega
            have hmaxp : ∀ q' ∈ p :: q :: R'',
                firstIdxGE q'.Date rows₁ = some m → q'.Date ≤ p.Date := by
              intro q' hq' hfq'
              rcases List.mem_cons.mp hq' with rfl | hq''
              · exact le_refl _
              · exfalso
                have hqq' : q.Date ≤ q'.Date := by
                  rcases List.mem_cons.mp hq'' with rfl | hq'''
                  · exact le_refl _
                  · exact le_of_lt ((List.pairwise_cons.mp hptail).1 q' hq''')
                have := firstIdxGE_mono hqq' hjq hfq'
                omega
            obtain ⟨hj, hload⟩ := hfin p (by simp) m hjp hmaxp
            refine row_ext ?_ ?_
            · rw [hget]
              exact hdateeq
            · rw [hget]
              simp only
              rw [hdata']
              exact storeAssoc_same_value _ _ _ hload
      · -- untouched slot: the old invariant carries over
        have hget : (storeAt S jp t (freshBar p)).get ⟨m, hmS'⟩ =
            S.get ⟨m, hmS⟩ := modifyIdx_get_ne _ S jp m hmS hmjp
        rcases hinv m hmS hm1 with hclean | ⟨phead, hph, hphfi, v, hdata⟩
        · left
          rw [hget]
          exact hclean
        · exfalso
          simp only [List.head?_cons, Option.some.injEq] at hph
          subst hph
          rw [hjp] at hphfi
          have := Option.some_inj.mp hphfi
          omega

theorem mergeRows_cons (t : String) (rows : List Row) (p₀ : PackedPeriod)
    (rest : List PackedPeriod) :
    mergeRows t rows (p₀ :: rest) =
      (p₀ :: rest).foldl (storeFirstGE t) (mergeBase rows p₀) := rfl

theorem mergeBase_exists_le (rows : List Row) (p₀ : PackedPeriod) :
    ∃ d ∈ (mergeBase rows p₀).map Row.Date, d ≤ p₀.Date := by
  unfold mergeBase
  split
  · exact ⟨p₀.Date, by simp [emptyRow], le_refl _⟩
  · rename_i hall
    rw [List.all_eq_true] at hall
    push_neg at hall
    obtain ⟨r, hr, hrd⟩ := hall
    have hnlt : ¬(p₀.Date < r.Date) := fun hlt => hrd (decide_eq_true hlt)
    exact ⟨r.Date, List.mem_map_of_mem Row.Date hr, by omega⟩

theorem mergeBase_eq_self {rows : List Row} {p₀ : PackedPeriod}
    (hex : ∃ d ∈ rows.map Row.Date, d ≤ p₀.Date) : mergeBase rows p₀ = rows := by
  obtain ⟨d, hd, hdle⟩ := hex
  obtain ⟨r, hr, rfl⟩ := List.mem_map.mp hd
  unfold mergeBase
  rw [if_neg]
  intro hall
  rw [List.all_eq_true] at hall
  have := hall r hr
  simp only [decide_eq_true_eq] at this
  omega

theorem history_ext {a b : History} (h1 : a.Tickers = b.Tickers)
    (h2 : a.Rows = b.Rows) : a = b := by
  cases a
  cases b
  simp only at h1 h2
  rw [h1, h2]

/-- C7: merging the same sorted bar list for the same ticker twice yields
exactly the store produced by merging it once — rows, dates, per-cell bar
values, and the TickerRange entry are all unchanged by the replay, because
every replayed bar overwrites the row slot it originally targeted with the
identical fresh bar. -/
theorem c7_addData_idempotent (h : History) (ps : List PackedPeriod)
    (t : String) (hs : RowsSorted h.Rows) (hp : PeriodsSorted ps)
    (hne : ps ≠ []) :
    (h.addData ps t).addData ps t = h.addData ps t := by
  match ps, hne with
  | p₀ :: rest, _ =>
    have h1rows : (h.addData (p₀ :: rest) t).Rows =
        mergeRows t h.Rows (p₀ :: rest) := addData_rows_eq h _ t hs hp
    have h1sorted : RowsSorted (h.addData (p₀ :: rest) t).Rows := by
      rw [h1rows]
      exact mergeRows_sorted t _ hs
    have h2rows : ((h.addData (p₀ :: rest) t).addData (p₀ :: rest) t).Rows =
        mergeRows t (h.addData (p₀ :: rest) t).Rows (p₀ :: rest) :=
      addData_rows_eq _ _ t h1sorted hp
    have hexle : ∃ d ∈ (mergeRows t h.Rows (p₀ :: rest)).map Row.Date,
        d ≤ p₀.Date := by
      obtain ⟨d, hd, hdle⟩ := mergeBase_exists_le h.Rows p₀
      rw [mergeRows_cons]
      exact ⟨d, mem_dates_preserved t (p₀ :: rest) _ hd, hdle⟩
    have hround2 : mergeRows t (mergeRows t h.Rows (p₀ :: rest)) (p₀ :: rest) =
        mergeRows t h.Rows (p₀ :: rest) := by
      rw [mergeRows_cons t (mergeRows t h.Rows (p₀ :: rest)) p₀ rest,
        mergeBase_eq_self hexle]
      rw [mergeRows_cons t h.Rows p₀ rest]
      refine foldl_storeFirstGE_idem_aux t (p₀ :: rest) _ _ hp ?_ ?_ rfl ?_
      · intro q hq
        rw [firstIdxGE_isSome_iff]
        obtain ⟨d, hdm, hdge⟩ := foldl_storeFirstGE_exists_ge t (p₀ :: rest)
          (mergeBase h.Rows p₀) q hq
        obtain ⟨row', hrow', rfl⟩ := List.mem_map.mp hdm
        exact ⟨row', hrow', hdge⟩
      · exact foldl_storeFirstGE_maxEntry t (p₀ :: rest) hp
      · intro m hmS hm1
        exact Or.inl rfl
    refine history_ext ?_ ?_
    · show storeAssoc (h.addData (p₀ :: rest) t).Tickers t
        ⟨p₀.Date, ((p₀ :: rest).getLastD p₀).Date⟩ = _
      show storeAssoc (storeAssoc h.Tickers t
        ⟨p₀.Date, ((p₀ :: rest).getLastD p₀).Date⟩) t
        ⟨p₀.Date, ((p₀ :: rest).getLastD p₀).Date⟩ = _
      rw [storeAssoc_storeAssoc]
      rfl
    · rw [h2rows, h1rows, hround2]

/-- C7 witnessed concretely: bars dated 2 (falling between the existing rows
dated 1 and 3) and 5 (past the end), merged twice for ticker "A". -/
theorem c7_addData_idempotent_witness :
    RowsSorted historyA13.Rows ∧ PeriodsSorted [zeroBar 2, zeroBar 5] ∧
    ([zeroBar 2, zeroBar 5] ≠ ([] : List PackedPeriod)) ∧
    (historyA13.addData [zeroBar 2, zeroBar 5] "A").addData
        [zeroBar 2, zeroBar 5] "A" =
      historyA13.addData [zeroBar 2, zeroBar 5] "A" :=
  ⟨by decide, by decide, by decide,
    c7_addData_idempotent historyA13 [zeroBar 2, zeroBar 5] "A" (by decide)
      (by decide) (by decide)⟩

end Algobattle
